import Mathlib

/-!
Verification of the line/coordinate model and the incremental Rust
syntax highlighter of the kilo editor.

The development is a shallow embedding of two source files:

* `src/syntax/rust.rs` — the tokenizer, the per-row highlighter and the
  cross-line context encoding.  Strings are modelled as `List Char`; the
  `char_indices` iterator becomes an explicit list of (byte-offset, char)
  pairs built with `Char.utf8Size`, and each scanner loop becomes a
  recursive function on that list.
* `src/row.rs` — the row coordinate tables.  A character is abstracted to
  the data the algorithm consults: whether it is a tab, its display
  width, and its UTF-8 byte length.
-/

namespace Kilo

/-! ### Character classes (`is_delim` and friends from `rust.rs`) -/

/-- `char::is_ascii_whitespace` from Rust: space, tab, newline, form feed,
carriage return. -/
def isAsciiWhitespace (c : Char) : Bool :=
  c = ' ' || c = '\t' || c = '\n' || c = '\x0c' || c = '\r'

/-- `char::is_ascii_punctuation` from Rust: the four ASCII punctuation
ranges. -/
def isAsciiPunctuation (c : Char) : Bool :=
  (0x21 ≤ c.toNat && c.toNat ≤ 0x2f) ||
  (0x3a ≤ c.toNat && c.toNat ≤ 0x40) ||
  (0x5b ≤ c.toNat && c.toNat ≤ 0x60) ||
  (0x7b ≤ c.toNat && c.toNat ≤ 0x7e)

/-- `char::is_ascii_uppercase`. -/
def isAsciiUppercase (c : Char) : Bool :=
  0x41 ≤ c.toNat && c.toNat ≤ 0x5a

/-- `is_delim` from `rust.rs`:
`ch.is_ascii_whitespace() || ch != '_' && ch.is_ascii_punctuation()`. -/
def isDelim (c : Char) : Bool :=
  isAsciiWhitespace c || (c ≠ '_' && isAsciiPunctuation c)

/-! ### Byte offsets: the model of `str::char_indices` -/

/-- Total UTF-8 byte length of a string (Rust `str::len`). -/
def utf8Len (s : List Char) : Nat := (s.map Char.utf8Size).sum

/-- The `char_indices` iterator: each character paired with its byte
offset, starting from `off`. -/
def charIndices (off : Nat) : List Char → List (Nat × Char)
  | [] => []
  | c :: t => (off, c) :: charIndices (off + c.utf8Size) t

/-- `&text[start..stop]` for a byte range, as the characters whose byte
offset falls inside the range (coincides with Rust slicing whenever
`start` and `stop` are character boundaries, which is the only way the
tokenizer uses it). -/
def sliceBytes (text : List Char) (start stop : Nat) : List Char :=
  ((charIndices 0 text).filter
    (fun p => decide (start ≤ p.1) && decide (p.1 < stop))).map Prod.snd

/-! ### Token kinds (`TokenKind` in `rust.rs`) -/

/-- `TokenKind` from `rust.rs`.  Payloads follow the source; `depth` and
`n_hashes` are `u8` there and `Nat` here (the code never exercises values
near 256 without already hitting a `u8` overflow panic). -/
inductive TokenKind where
  | Attribute (open_ : Bool)
  | Bang
  | BlockComment (open_ : Bool) (depth : Nat)
  | CharLit
  | Colon
  | ColonColon
  | Const
  | Fn
  | For
  | Ident
  | Keyword
  | Let
  | Lifetime
  | LineComment
  | Mod
  | Mut
  | Paren
  | PrimitiveType
  | Punct
  | Question
  | RawIdent
  | RawStrLit (open_ : Bool) (n_hashes : Nat)
  | Static
  | StrLit (open_ : Bool)
  | UpperIdent
deriving DecidableEq, Repr

/-- `Token` from `rust.rs`: a kind plus a half-open byte span. -/
structure Token where
  kind : TokenKind
  start : Nat
  stop : Nat
deriving DecidableEq, Repr

end Kilo

namespace Kilo

/-! ### The scanner loops of `rust.rs`

Each `while`/`loop` over the peekable character stream becomes a
recursive function on the remaining `(byte offset, char)` list.  `Token`'s
`stop` field is the source's `end` (a Lean keyword). -/

/-- Rust `self.chars.find(|t| !t.1.is_ascii_whitespace())`: drops
whitespace and returns the first non-whitespace element together with the
stream after it. -/
def findNonWs : List (Nat × Char) → Option ((Nat × Char) × List (Nat × Char))
  | [] => none
  | (i, c) :: rest => if isAsciiWhitespace c then findNonWs rest else some ((i, c), rest)

/-- Rust `self.chars.find(|t| t.1 == target)`: consumes through the first
occurrence; returns whether it was found and the stream after it. -/
def findCharIs (target : Char) : List (Nat × Char) → Bool × List (Nat × Char)
  | [] => (false, [])
  | (_, c) :: rest => if c = target then (true, rest) else findCharIs target rest

/-- `Tokens::attribute`. -/
def attributeTok (s : List (Nat × Char)) : TokenKind × List (Nat × Char) :=
  let r := findCharIs ']' s
  (.Attribute (!r.1), r.2)

/-- The loop of `Tokens::block_comment`; the caller starts it with
`depth = 1` after consuming the `*` of the opener. -/
def blockCommentLoop (depth : Nat) : List (Nat × Char) → TokenKind × List (Nat × Char)
  | [] => (.BlockComment true depth, [])
  | (_, '/') :: (_, '*') :: rest => blockCommentLoop (depth + 1) rest
  | (_, '*') :: (_, '/') :: rest =>
    if depth - 1 = 0 then (.BlockComment false (depth - 1), rest)
    else blockCommentLoop (depth - 1) rest
  | _ :: rest => blockCommentLoop depth rest

/-- `Tokens::char_lit`. -/
def charLit : List (Nat × Char) → TokenKind × List (Nat × Char)
  | [] => (.CharLit, [])
  | (_, '\'') :: rest => (.CharLit, rest)
  | (_, '\\') :: [] => (.CharLit, [])
  | (_, '\\') :: _ :: rest => charLit rest
  | _ :: rest => charLit rest

/-- The loop of `Tokens::char_lit_or_lifetime`, entered after its initial
`next()` consumed one character. -/
def charLitOrLifetimeLoop : List (Nat × Char) → TokenKind × List (Nat × Char)
  | [] => (.Lifetime, [])
  | (i, c) :: rest =>
    if c = '\'' then (.CharLit, rest)
    else if isDelim c then (.Lifetime, (i, c) :: rest)
    else charLitOrLifetimeLoop rest

/-- `Tokens::str_lit`. -/
def strLit : List (Nat × Char) → TokenKind × List (Nat × Char)
  | [] => (.StrLit true, [])
  | (_, '"') :: rest => (.StrLit false, rest)
  | (_, '\\') :: [] => (.StrLit true, [])
  | (_, '\\') :: _ :: rest => strLit rest
  | _ :: rest => strLit rest

/-- The opening-hash loop of `Tokens::raw_str_lit`. -/
def countHashes : List (Nat × Char) → Nat × List (Nat × Char)
  | (_, '#') :: rest => let r := countHashes rest; (r.1 + 1, r.2)
  | s => (0, s)

/-- The closing-hash loop of `Tokens::raw_str_lit`: consumes leading
hashes, but at most `n`, returning how many were consumed. -/
def takeHashesUpTo : Nat → List (Nat × Char) → Nat × List (Nat × Char)
  | 0, s => (0, s)
  | n + 1, (_, '#') :: rest => let r := takeHashesUpTo n rest; (r.1 + 1, r.2)
  | _ + 1, s => (0, s)

/-- The scanning loop of `Tokens::raw_str_lit`.  Each iteration consumes
at least one stream element, so running it on fuel `s.length + 1` never
exhausts the fuel; the fuel-zero answer is arbitrary. -/
def rawStrLoop : Nat → Nat → List (Nat × Char) → TokenKind × List (Nat × Char)
  | 0, n, _ => (.RawStrLit true n, [])
  | _ + 1, n, [] => (.RawStrLit true n, [])
  | fuel + 1, n, (_, '"') :: rest =>
    let r := takeHashesUpTo n rest
    if r.1 = n then (.RawStrLit false n, r.2) else rawStrLoop fuel n r.2
  | fuel + 1, n, _ :: rest => rawStrLoop fuel n rest

/-- `Tokens::raw_str_lit`. -/
def rawStrLit (s : List (Nat × Char)) : TokenKind × List (Nat × Char) :=
  let c := countHashes s
  match c.2 with
  | (_, '"') :: rest => rawStrLoop (rest.length + 1) c.1 rest
  | _ => (.Punct, c.2)

/-- The peek-and-consume loop shared by `Tokens::raw_ident` and
`Tokens::upper_ident`: consumes characters until a delimiter. -/
def skipNonDelim : List (Nat × Char) → List (Nat × Char)
  | [] => []
  | (i, c) :: rest => if isDelim c then (i, c) :: rest else skipNonDelim rest

/-- `Tokens::raw_ident` (its initial `next()` drops the `#`). -/
def rawIdentTok (s : List (Nat × Char)) : TokenKind × List (Nat × Char) :=
  (.RawIdent, skipNonDelim (s.drop 1))

/-- The loop of `Tokens::ident`: the byte offset at which the identifier
ends (the next delimiter's offset, or the text length). -/
def identEnd (textLen : Nat) : List (Nat × Char) → Nat × List (Nat × Char)
  | [] => (textLen, [])
  | (i, c) :: rest => if isDelim c then (i, (i, c) :: rest) else identEnd textLen rest

/-- Keyword table of `Tokens::ident`. -/
def kwStrings : List (List Char) :=
  ["as", "async", "await", "box", "break", "continue", "crate", "do",
   "dyn", "else", "enum", "extern", "false", "if", "impl", "in", "loop",
   "match", "move", "priv", "pub", "ref", "return", "self", "struct",
   "super", "trait", "true", "try", "type", "use", "virtual", "where",
   "while", "yield"].map String.toList

/-- Primitive-type table of `Tokens::ident`. -/
def primStrings : List (List Char) :=
  ["bool", "char", "f32", "f64", "i8", "i16", "i32", "i64", "i128",
   "isize", "str", "u8", "u16", "u32", "u64", "u128", "usize"].map String.toList

/-- The final classification of `Tokens::ident` on `&text[start..end]`. -/
def classifyIdent (w : List Char) : TokenKind :=
  if w = "const".toList then .Const
  else if w = "fn".toList then .Fn
  else if w = "for".toList then .For
  else if w = "let".toList then .Let
  else if w = "mod".toList then .Mod
  else if w = "mut".toList then .Mut
  else if w = "static".toList then .Static
  else if w ∈ kwStrings then .Keyword
  else if w ∈ primStrings then .PrimitiveType
  else .Ident

/-- `Tokens::ident`. -/
def identTok (text : List Char) (start : Nat) (s : List (Nat × Char)) :
    TokenKind × List (Nat × Char) :=
  let r := identEnd (utf8Len text) s
  (classifyIdent (sliceBytes text start r.1), r.2)

/-- The dispatch on the first character of a token (the big `match ch`
of `Tokens::next`), with the source's arm order and lookahead; `s` is the
stream after the dispatched character was consumed. -/
def dispatchTok (text : List Char) (start : Nat) (ch : Char) (s : List (Nat × Char)) :
    TokenKind × List (Nat × Char) :=
  if ch = '#' then
    match s with
    | (_, '[') :: _ => attributeTok s
    | (_, '!') :: (_, '[') :: _ => attributeTok s
    | _ => (.Punct, s)
  else if ch = '/' then
    match s with
    | (_, '/') :: _ => (.LineComment, [])
    | (_, '*') :: rest => blockCommentLoop 1 rest
    | _ => (.Punct, s)
  else if ch = '\'' then
    match s with
    | [] => (.Punct, s)
    | (_, c) :: rest => if isDelim c then charLit s else charLitOrLifetimeLoop rest
  else if ch = '"' then strLit s
  else if ch = 'r' then
    match s with
    | (_, '"') :: _ => rawStrLit s
    | (_, '#') :: (_, c2) :: _ => if isDelim c2 then rawStrLit s else rawIdentTok s
    | (_, '#') :: [] => rawStrLit s
    | _ => identTok text start s
  else if ch = 'b' then
    match s with
    | (_, '\'') :: rest => charLit rest
    | (_, '"') :: rest => strLit rest
    | (_, 'r') :: (_, '"') :: _ => rawStrLit (s.drop 1)
    | (_, 'r') :: (_, '#') :: _ => rawStrLit (s.drop 1)
    | _ => identTok text start s
  else if ch = '(' then (.Paren, s)
  else if ch = '?' then (.Question, s)
  else if ch = '!' then
    match s with
    | (_, '=') :: _ => (.Punct, s)
    | _ => (.Bang, s)
  else if ch = ':' then
    match s with
    | (_, ':') :: rest => (.ColonColon, rest)
    | _ => (.Colon, s)
  else if isDelim ch then (.Punct, s)
  else if isAsciiUppercase ch then (.UpperIdent, skipNonDelim s)
  else identTok text start s

/-- `Tokens::next` (the `Iterator` impl in `rust.rs`): skip whitespace,
dispatch on the found character, and compute the token span.  The span's
end is the byte offset of the next unconsumed element, or the text
length. -/
def nextToken (text : List Char) (s0 : List (Nat × Char)) :
    Option (Token × List (Nat × Char)) :=
  match findNonWs s0 with
  | none => none
  | some ((start, ch), s) =>
    let ks := dispatchTok text start ch s
    let stop := match ks.2 with
      | (i, _) :: _ => i
      | [] => utf8Len text
    some (⟨ks.1, start, stop⟩, ks.2)

/-- Driving the token iterator to exhaustion.  Each `nextToken` consumes
at least the found character, so fuel `s.length + 1` suffices. -/
def tokenListFuel (text : List Char) : Nat → List (Nat × Char) → List Token
  | 0, _ => []
  | fuel + 1, s =>
    match nextToken text s with
    | none => []
    | some (t, s') => t :: tokenListFuel text fuel s'

/-- `Tokens::from(text, context)` followed by collecting every token: the
stream chains the context's `char_indices` with the text's, each starting
at byte offset 0, exactly as in the source. -/
def tokenize (context text : List Char) : List Token :=
  let s := charIndices 0 context ++ charIndices 0 text
  tokenListFuel text (s.length + 1) s

/-! ### Cross-line context words (`HlContext` constants of `rust.rs`) -/

def UNDEFINED : Nat := 0x00000000

def NORMAL : Nat := 0x00000001

def IN_ATTRIBUTE : Nat := 0x00000002

def IN_STRING : Nat := 0x00000004

def IN_RAW_STRING : Nat := 0x0000ff00

def IN_COMMENT : Nat := 0x00ff0000

/-- `"/*".repeat depth` from `Rust::decode_context`. -/
def commentOpens : Nat → List Char
  | 0 => []
  | d + 1 => '/' :: '*' :: commentOpens d

/-- `Rust::decode_context`: the synthetic prefix decoded from an incoming
context (`IN_RAW_STRING.trailing_zeros() = 8`,
`IN_COMMENT.trailing_zeros() = 16`). -/
def decodeContext (hl : Nat) : List Char :=
  if hl &&& IN_ATTRIBUTE ≠ 0 then ['#', '[']
  else if hl &&& IN_STRING ≠ 0 then ['"']
  else if hl &&& IN_RAW_STRING ≠ 0 then
    'r' :: (List.replicate (hl >>> 8 - 1) '#' ++ ['"'])
  else if hl &&& IN_COMMENT ≠ 0 then commentOpens (hl >>> 16)
  else []

/-- `Rust::encode_context`. -/
def encodeContext : Option TokenKind → Nat
  | some (.Attribute true) => IN_ATTRIBUTE
  | some (.StrLit true) => IN_STRING
  | some (.RawStrLit true n) => (n + 1) <<< 8
  | some (.BlockComment true d) => d <<< 16
  | _ => NORMAL

end Kilo

namespace Kilo

/-- C4: tokenizing `/* /* inner` from the plain-code context yields
exactly one block-comment token, open at nesting depth 2; its encoded
outgoing context decodes to a depth-2 comment prefix, under which a line
containing only `*/ */` tokenizes to a single closed block comment whose
outgoing context is plain code. -/
theorem C4_nested_block_comment :
    tokenize (decodeContext NORMAL) "/* /* inner".toList =
      [⟨.BlockComment true 2, 0, 11⟩] ∧
    encodeContext (some (.BlockComment true 2)) = 2 <<< 16 ∧
    decodeContext (2 <<< 16) = "/*/*".toList ∧
    tokenize (decodeContext (2 <<< 16)) "*/ */".toList =
      [⟨.BlockComment false 0, 0, 5⟩] ∧
    encodeContext (some (.BlockComment false 0)) = NORMAL := by
  decide

/-- C5: `r##"a"#b"##` tokenizes to a single closed raw-string token with
hash count 2, while `r##"a"#b"#` tokenizes to a single raw-string token
still open at end of line. -/
theorem C5_raw_string_hashes :
    tokenize (decodeContext NORMAL) "r##\"a\"#b\"##".toList =
      [⟨.RawStrLit false 2, 0, 11⟩] ∧
    tokenize (decodeContext NORMAL) "r##\"a\"#b\"#".toList =
      [⟨.RawStrLit true 2, 0, 10⟩] := by
  decide

end Kilo

namespace Kilo

/-! ### The per-row highlighter (`Rust::highlight_row`, `Rust::highlight`)

`Row` in `rust.rs` carries, besides the coordinate tables, the line text,
the per-byte face array and the stored lexical context; only those three
fields are touched by the highlighter, so they form the row model here
(the coordinate tables are modelled separately with `row.rs`). -/

/-- `Face` from `face.rs`, as consumed by `rust.rs` (`Ty` renders the
source's `Face::Type`, a reserved word in Lean). -/
inductive Face where
  | Default
  | Comment
  | String
  | Keyword
  | Variable
  | Ty
  | Function
  | Module
  | Macro
deriving DecidableEq, Repr

/-- The highlighter's view of a `Row`: its text, the per-byte face array
`faces`, and the stored `hl_context`. -/
structure HRow where
  string : List Char
  faces : List Face
  hl_context : Nat
deriving DecidableEq, Repr

/-- The face chosen for a token from its kind, one token of lookback and
one of lookahead (the `match token.kind` in `Rust::highlight_row`). -/
def faceFor (prevK : Option TokenKind) (k : TokenKind) (nextK : Option TokenKind) : Face :=
  match k with
  | .Attribute _ => .Macro
  | .BlockComment _ _ => .Comment
  | .LineComment => .Comment
  | .CharLit => .String
  | .RawStrLit _ _ => .String
  | .StrLit _ => .String
  | .Const => .Keyword
  | .Fn => .Keyword
  | .For => .Keyword
  | .Keyword => .Keyword
  | .Let => .Keyword
  | .Mod => .Keyword
  | .Mut => .Keyword
  | .Static => .Keyword
  | .Lifetime => .Variable
  | .PrimitiveType => .Ty
  | .Question => .Macro
  | .Bang =>
    match prevK with
    | some .Ident => .Macro
    | _ => .Default
  | .UpperIdent =>
    match prevK with
    | some .Const => .Variable
    | some .Static => .Variable
    | _ => .Ty
  | .Ident | .RawIdent =>
    match prevK with
    | some .Fn => .Function
    | some .For => .Variable
    | some .Let => .Variable
    | some .Mut => .Variable
    | some .Mod => .Module
    | _ =>
      match nextK with
      | some .Bang => .Macro
      | some .Colon => .Variable
      | some .ColonColon => .Module
      | some .Paren => .Function
      | _ => .Default
  | _ => .Default

/-- `for i in token.start..token.end { row.faces[i] = face }`.  The Rust
writes index into the face vector; the model writes positionally (the
token spans are proved to stay inside the face array, so the two agree on
all reachable states). -/
def setRange (l : List Face) (start stop : Nat) (f : Face) : List Face :=
  l.mapIdx (fun i x => if start ≤ i ∧ i < stop then f else x)

/-- The token-consuming loop of `Rust::highlight_row`: walks the token
list carrying the previous token's kind, paints each token's span, and
returns the face array together with the last token's kind. -/
def assignFaces (prevK : Option TokenKind) (faces : List Face) :
    List Token → List Face × Option TokenKind
  | [] => (faces, prevK)
  | t :: rest =>
    assignFaces (some t.kind)
      (setRange faces t.start t.stop (faceFor prevK t.kind (rest.head?.map Token.kind)))
      rest

/-- `Rust::highlight_row`: reset the face array to one default face per
byte of the text, tokenize with the decoded context prefix, paint every
token, and return the new row together with the encoded outgoing
context. -/
def highlightRow (row : HRow) : HRow × Nat :=
  let faces0 := List.replicate (utf8Len row.string) Face.Default
  let toks := tokenize (decodeContext row.hl_context) row.string
  let r := assignFaces none faces0 toks
  ({ row with faces := r.1 }, encodeContext r.2)

/-- The context assignment `Rust::highlight` performs on a row before
processing it: row 0 keeps its stored context unless it is `UNDEFINED`
(then it becomes `NORMAL`); a later row is overwritten with the context
the previous row just produced. -/
def hlEntry (i newCtx : Nat) (row : HRow) : HRow :=
  if i = 0 then
    (if row.hl_context = UNDEFINED then { row with hl_context := NORMAL } else row)
  else { row with hl_context := newCtx }

/-- The loop of `Rust::highlight` over `rows.iter_mut().enumerate()`:
`i` is the enumeration index, `newCtx` the context produced by the
previous row (`UNDEFINED` before any row was processed).  Breaking out of
the loop returns the remaining rows unchanged. -/
def highlightGo (i : Nat) (newCtx : Nat) : List HRow → List HRow × Nat
  | [] => ([], 0)
  | row :: rest =>
    if i ≠ 0 ∧ row.hl_context = newCtx then (row :: rest, 0)
    else
      let pr := highlightRow (hlEntry i newCtx row)
      let rec_ := highlightGo (i + 1) pr.2 rest
      (pr.1 :: rec_.1, rec_.2 + 1)

/-- `Rust::highlight`: process the given rows from index 0, returning the
revised rows and the number of rows actually revised. -/
def highlight (rows : List HRow) : List HRow × Nat :=
  highlightGo 0 UNDEFINED rows

end Kilo

namespace Kilo

/-- `highlight_row` rewrites only the face array: the text is untouched. -/
theorem highlightRow_string (r : HRow) : (highlightRow r).1.string = r.string := rfl

/-- `highlight_row` rewrites only the face array: the stored context is
untouched (the driver, not `highlight_row`, assigns `hl_context`). -/
theorem highlightRow_ctx (r : HRow) : (highlightRow r).1.hl_context = r.hl_context := rfl

/-- Reprocessing a processed row changes nothing: `highlight_row` depends
only on the text and the stored context, and it preserves both. -/
theorem highlightRow_stable (r : HRow) : highlightRow (highlightRow r).1 = highlightRow r := rfl

/-- Once the tail rows carry the contexts a pass just gave them, a second
pass over the tail stops at its first row. -/
theorem highlightGo_one_fix (c : Nat) (rest : List HRow) :
    highlightGo 1 c (highlightGo 1 c rest).1 = ((highlightGo 1 c rest).1, 0) := by
  cases rest with
  | nil => rfl
  | cons r rs =>
    by_cases h : r.hl_context = c
    · simp [highlightGo, h]
    · simp [highlightGo, hlEntry, h, highlightRow_ctx]

/-- C6: re-running `highlight` on the rows a first run produced leaves
every row identical — the attribute arrays and stored contexts after the
second call equal their values after the first. -/
theorem C6_highlight_idempotent (rows : List HRow) :
    (highlight (highlight rows).1).1 = (highlight rows).1 := by
  cases rows with
  | nil => rfl
  | cons r rest =>
    by_cases hu : r.hl_context = 0 <;>
      simp [highlight, highlightGo, hlEntry, hu, highlightRow_ctx, highlightRow_stable,
        highlightGo_one_fix, UNDEFINED, NORMAL]

end Kilo

namespace Kilo

/-- The highlight loop returns as many rows as it was given. -/
theorem highlightGo_length (rows : List HRow) :
    ∀ i ctx, (highlightGo i ctx rows).1.length = rows.length := by
  induction rows with
  | nil => intro i ctx; rfl
  | cons r rest ih =>
    intro i ctx
    by_cases h : i ≠ 0 ∧ r.hl_context = ctx
    · simp [highlightGo, h]
    · simp [highlightGo, h, ih]

/-- The revised-row count never exceeds the number of rows given. -/
theorem highlightGo_count_le (rows : List HRow) :
    ∀ i ctx, (highlightGo i ctx rows).2 ≤ rows.length := by
  induction rows with
  | nil => intro i ctx; simp [highlightGo]
  | cons r rest ih =>
    intro i ctx
    by_cases h : i ≠ 0 ∧ r.hl_context = ctx
    · simp [highlightGo, h]
    · simpa [highlightGo, h] using ih (i + 1) (highlightRow (hlEntry i ctx r)).2

/-- Frame property of the loop: every row at an index at or beyond the
returned count is returned exactly as it was given. -/
theorem highlightGo_frame (rows : List HRow) :
    ∀ i ctx, (highlightGo i ctx rows).1.drop (highlightGo i ctx rows).2 =
      rows.drop (highlightGo i ctx rows).2 := by
  induction rows with
  | nil => intro i ctx; rfl
  | cons r rest ih =>
    intro i ctx
    by_cases h : i ≠ 0 ∧ r.hl_context = ctx
    · simp [highlightGo, h]
    · simpa [highlightGo, h] using ih (i + 1) (highlightRow (hlEntry i ctx r)).2

/-- If the loop was entered at a nonzero index and still revised its
first row, that row's stored context differed from the incoming one. -/
theorem highlightGo_pos_head (l : List HRow) (i c : Nat) (d : HRow)
    (hi : i ≠ 0) (h : 1 ≤ (highlightGo i c l).2) : (l.getD 0 d).hl_context ≠ c := by
  cases l with
  | nil => simp [highlightGo] at h
  | cons r rest =>
    by_cases hb : i ≠ 0 ∧ r.hl_context = c
    · simp [highlightGo, hb] at h
    · intro hc
      exact hb ⟨hi, by simpa using hc⟩

end Kilo

namespace Kilo

/-- Unfolding `highlightGo` at a row it breaks on. -/
theorem highlightGo_cons_break (i ctx : Nat) (r : HRow) (rest : List HRow)
    (h : i ≠ 0 ∧ r.hl_context = ctx) :
    highlightGo i ctx (r :: rest) = (r :: rest, 0) := by
  simp [highlightGo, h]

/-- Unfolding `highlightGo` at a row it revises. -/
theorem highlightGo_cons_go (i ctx : Nat) (r : HRow) (rest : List HRow)
    (h : ¬(i ≠ 0 ∧ r.hl_context = ctx)) :
    highlightGo i ctx (r :: rest) =
      ((highlightRow (hlEntry i ctx r)).1 ::
          (highlightGo (i + 1) (highlightRow (hlEntry i ctx r)).2 rest).1,
        (highlightGo (i + 1) (highlightRow (hlEntry i ctx r)).2 rest).2 + 1) := by
  simp [highlightGo, h]

/-- Where the loop stopped: when fewer rows were revised than given, the
first unrevised row's stored context equals the context the last revised
row produces (or, for a stop at the very first row, the incoming one). -/
theorem highlightGo_stop (d : HRow) (rows : List HRow) :
    ∀ i ctx, (highlightGo i ctx rows).2 < rows.length →
      ((highlightGo i ctx rows).2 = 0 → (rows.getD 0 d).hl_context = ctx) ∧
      (∀ m, (highlightGo i ctx rows).2 = m + 1 →
        (rows.getD (m + 1) d).hl_context =
          (highlightRow ((highlightGo i ctx rows).1.getD m d)).2) := by
  induction rows with
  | nil => intro i ctx h; simp [highlightGo] at h
  | cons r rest ih =>
    intro i ctx h
    by_cases hb : i ≠ 0 ∧ r.hl_context = ctx
    · rw [highlightGo_cons_break i ctx r rest hb]
      exact ⟨fun _ => hb.2, fun m hm => by simp at hm⟩
    · rw [highlightGo_cons_go i ctx r rest hb] at h ⊢
      have hp : (highlightGo (i + 1) (highlightRow (hlEntry i ctx r)).2 rest).2 <
          rest.length := by
        simpa using h
      obtain ⟨ih1, ih2⟩ := ih (i + 1) (highlightRow (hlEntry i ctx r)).2 hp
      refine ⟨fun h0 => by simp at h0, fun m hm => ?_⟩
      have hm' : (highlightGo (i + 1) (highlightRow (hlEntry i ctx r)).2 rest).2 = m := by
        omega
      subst hm'
      simp only [List.getD_cons_succ]
      cases hz : (highlightGo (i + 1) (highlightRow (hlEntry i ctx r)).2 rest).2 with
      | zero =>
        rw [List.getD_cons_zero, highlightRow_stable]
        exact ih1 hz
      | succ m' =>
        rw [List.getD_cons_succ]
        exact ih2 m' hz

/-- Every row the loop revised beyond the first was revised because its
stored context differed from the context the row before it produces. -/
theorem highlightGo_processed (d : HRow) (rows : List HRow) :
    ∀ i ctx j, 0 < j → j < (highlightGo i ctx rows).2 →
      (rows.getD j d).hl_context ≠
        (highlightRow ((highlightGo i ctx rows).1.getD (j - 1) d)).2 := by
  induction rows with
  | nil => intro i ctx j _ hj; simp [highlightGo] at hj
  | cons r rest ih =>
    intro i ctx j hj0 hj
    by_cases hb : i ≠ 0 ∧ r.hl_context = ctx
    · rw [highlightGo_cons_break i ctx r rest hb] at hj
      omega
    · rw [highlightGo_cons_go i ctx r rest hb] at hj ⊢
      obtain ⟨m, rfl⟩ : ∃ m, j = m + 1 := ⟨j - 1, by omega⟩
      have hm : m < (highlightGo (i + 1) (highlightRow (hlEntry i ctx r)).2 rest).2 := by
        simpa using hj
      simp only [List.getD_cons_succ, Nat.add_sub_cancel]
      cases m with
      | zero =>
        rw [List.getD_cons_zero, highlightRow_stable]
        exact highlightGo_pos_head rest (i + 1) _ d (by omega) hm
      | succ m' =>
        rw [List.getD_cons_succ]
        have := ih (i + 1) (highlightRow (hlEntry i ctx r)).2 (m' + 1) (by omega) hm
        simpa using this

end Kilo

namespace Kilo

/-- C1: on a non-empty slice, `highlight` revises a prefix of the rows:
it always revises row 0 and at most all rows; every row at an index at or
beyond the returned count comes back completely unchanged (text, face
array and stored context); a row beyond index 0 was revised only because
its stored context differed from the context produced by the row before
it; and when the run stops early, the first untouched row's stored
context equals the context the last revised row produced. -/
theorem C1_highlight_frame (d : HRow) (rows : List HRow) (hne : rows ≠ []) :
    1 ≤ (highlight rows).2 ∧
    (highlight rows).2 ≤ rows.length ∧
    (highlight rows).1.length = rows.length ∧
    (highlight rows).1.drop (highlight rows).2 = rows.drop (highlight rows).2 ∧
    (∀ j, 0 < j → j < (highlight rows).2 →
      (rows.getD j d).hl_context ≠
        (highlightRow ((highlight rows).1.getD (j - 1) d)).2) ∧
    ((highlight rows).2 < rows.length →
      (rows.getD (highlight rows).2 d).hl_context =
        (highlightRow ((highlight rows).1.getD ((highlight rows).2 - 1) d)).2) := by
  obtain ⟨r, rest, rfl⟩ : ∃ r rest, rows = r :: rest := by
    cases rows with
    | nil => exact absurd rfl hne
    | cons a b => exact ⟨a, b, rfl⟩
  have hb : ¬(0 ≠ 0 ∧ r.hl_context = UNDEFINED) := by simp
  have h1 : 1 ≤ (highlight (r :: rest)).2 := by
    rw [highlight, highlightGo_cons_go 0 UNDEFINED r rest hb]
    omega
  refine ⟨h1, highlightGo_count_le _ 0 UNDEFINED, highlightGo_length _ 0 UNDEFINED,
    highlightGo_frame _ 0 UNDEFINED,
    fun j hj0 hj => highlightGo_processed d _ 0 UNDEFINED j hj0 hj,
    fun hlt => ?_⟩
  obtain ⟨m, hm⟩ : ∃ m, (highlight (r :: rest)).2 = m + 1 :=
    ⟨(highlight (r :: rest)).2 - 1, by omega⟩
  have hs := (highlightGo_stop d (r :: rest) 0 UNDEFINED hlt).2 m hm
  rw [hm]
  simpa using hs

/-- Concrete instantiation of `C1_highlight_frame` on a one-row slice. -/
theorem C1_highlight_frame_witness :
    ((⟨[], [], 0⟩ : HRow) :: []) ≠ [] ∧ 1 ≤ (highlight [⟨[], [], 0⟩]).2 := by
  have h := C1_highlight_frame ⟨[], [], 0⟩ [⟨[], [], 0⟩] (by simp)
  exact ⟨by simp, h.1⟩

end Kilo

namespace Kilo

/-! ### Consumption bounds: every scanner loop returns a suffix of its
input stream.  These underpin the in-bounds results on token spans. -/

/-- A suffix of the tail is a suffix of the whole stream. -/
theorem suffix_cons_of {α : Type} {s t : List α} (x : α) (h : s <:+ t) : s <:+ x :: t :=
  h.trans (List.suffix_cons x t)

/-- `findNonWs` returns a suffix of its input. -/
theorem findNonWs_suffix (s : List (Nat × Char)) :
    ∀ p s', findNonWs s = some (p, s') → s' <:+ s := by
  induction s with
  | nil => intro p s' h; simp [findNonWs] at h
  | cons x rest ih =>
    intro p s' h
    obtain ⟨i, c⟩ := x
    by_cases hw : isAsciiWhitespace c
    · rw [findNonWs, if_pos hw] at h
      exact suffix_cons_of _ (ih p s' h)
    · rw [findNonWs, if_neg hw] at h
      obtain ⟨rfl, rfl⟩ : p = (i, c) ∧ s' = rest := by
        have := Option.some.inj h
        exact ⟨(congrArg Prod.fst this).symm, (congrArg Prod.snd this).symm⟩
      exact suffix_cons_of _ List.suffix_rfl

end Kilo

namespace Kilo

/-- `findCharIs` returns a suffix of its input. -/
theorem findCharIs_suffix (c : Char) (s : List (Nat × Char)) :
    (findCharIs c s).2 <:+ s := by
  induction s with
  | nil => simp [findCharIs]
  | cons x rest ih =>
    obtain ⟨i, c'⟩ := x
    by_cases hc : c' = c
    · rw [findCharIs, if_pos hc]
      exact suffix_cons_of _ List.suffix_rfl
    · rw [findCharIs, if_neg hc]
      exact suffix_cons_of _ ih

/-- `attributeTok` returns a suffix of its input. -/
theorem attributeTok_suffix (s : List (Nat × Char)) : (attributeTok s).2 <:+ s :=
  findCharIs_suffix ']' s

/-- `blockCommentLoop` returns a suffix of its input. -/
theorem blockCommentLoop_suffix (d : Nat) (s : List (Nat × Char)) :
    (blockCommentLoop d s).2 <:+ s := by
  induction d, s using blockCommentLoop.induct with
  | case1 d => simp [blockCommentLoop]
  | case2 d i j rest ih =>
    simp only [blockCommentLoop]
    exact suffix_cons_of _ (suffix_cons_of _ ih)
  | case3 d i j rest h =>
    simp only [blockCommentLoop, if_pos h]
    exact suffix_cons_of _ (suffix_cons_of _ List.suffix_rfl)
  | case4 d i j rest h ih =>
    simp only [blockCommentLoop, if_neg h]
    exact suffix_cons_of _ (suffix_cons_of _ ih)
  | case5 d hd rest h1 h2 ih =>
    rw [blockCommentLoop.eq_def]
    split
    · exact List.nil_suffix
    · next f f1 r1 heq =>
        injection heq with e1 e2
        exact (h1 f f1 r1 e1 e2).elim
    · next f f1 r1 heq =>
        injection heq with e1 e2
        exact (h2 f f1 r1 e1 e2).elim
    · next hd1 r1 heq =>
        injection heq with e1 e2
        subst e2
        exact suffix_cons_of _ ih


/-- `charLit` returns a suffix of its input. -/
theorem charLit_suffix (s : List (Nat × Char)) : (charLit s).2 <:+ s := by
  induction s using charLit.induct with
  | case1 => simp [charLit]
  | case2 i rest =>
    simp only [charLit]
    exact suffix_cons_of _ List.suffix_rfl
  | case3 i => simp [charLit]
  | case4 i hd rest ih =>
    simp only [charLit]
    exact suffix_cons_of _ (suffix_cons_of _ ih)
  | case5 hd rest h1 h2 h3 ih =>
    obtain ⟨i, c⟩ := hd
    have hc1 : c ≠ '\'' := fun he => h1 i (by rw [he])
    have hc2 : c ≠ '\\' := by
      intro he
      cases rest with
      | nil => exact h2 i (by rw [he]) rfl
      | cons y r => exact h3 i y r (by rw [he]) rfl
    have he : charLit ((i, c) :: rest) = charLit rest := by
      rw [charLit.eq_def]
      split <;> simp_all
    rw [he]
    exact suffix_cons_of _ ih

/-- `charLitOrLifetimeLoop` returns a suffix of its input. -/
theorem charLitOrLifetimeLoop_suffix (s : List (Nat × Char)) :
    (charLitOrLifetimeLoop s).2 <:+ s := by
  induction s with
  | nil => simp [charLitOrLifetimeLoop]
  | cons x rest ih =>
    obtain ⟨i, c⟩ := x
    by_cases h1 : c = '\''
    · rw [charLitOrLifetimeLoop, if_pos h1]
      exact suffix_cons_of _ List.suffix_rfl
    · by_cases h2 : isDelim c
      · rw [charLitOrLifetimeLoop, if_neg h1, if_pos h2]
      · rw [charLitOrLifetimeLoop, if_neg h1, if_neg h2]
        exact suffix_cons_of _ ih

/-- `strLit` returns a suffix of its input. -/
theorem strLit_suffix (s : List (Nat × Char)) : (strLit s).2 <:+ s := by
  induction s using strLit.induct with
  | case1 => simp [strLit]
  | case2 i rest =>
    simp only [strLit]
    exact suffix_cons_of _ List.suffix_rfl
  | case3 i => simp [strLit]
  | case4 i hd rest ih =>
    simp only [strLit]
    exact suffix_cons_of _ (suffix_cons_of _ ih)
  | case5 hd rest h1 h2 h3 ih =>
    obtain ⟨i, c⟩ := hd
    have hc1 : c ≠ '"' := fun he => h1 i (by rw [he])
    have hc2 : c ≠ '\\' := by
      intro he
      cases rest with
      | nil => exact h2 i (by rw [he]) rfl
      | cons y r => exact h3 i y r (by rw [he]) rfl
    have he : strLit ((i, c) :: rest) = strLit rest := by
      rw [strLit.eq_def]
      split <;> simp_all
    rw [he]
    exact suffix_cons_of _ ih

/-- `countHashes` returns a suffix of its input. -/
theorem countHashes_suffix (s : List (Nat × Char)) : (countHashes s).2 <:+ s := by
  induction s using countHashes.induct with
  | case1 i rest ih =>
    simp only [countHashes]
    exact suffix_cons_of _ ih
  | case2 s h1 =>
    have he : countHashes s = (0, s) := by
      rw [countHashes.eq_def]
      split <;> simp_all
    rw [he]

/-- `takeHashesUpTo` returns a suffix of its input. -/
theorem takeHashesUpTo_suffix (n : Nat) (s : List (Nat × Char)) :
    (takeHashesUpTo n s).2 <:+ s := by
  induction n, s using takeHashesUpTo.induct with
  | case1 s => simp [takeHashesUpTo]
  | case2 n i rest ih =>
    simp only [takeHashesUpTo]
    exact suffix_cons_of _ ih
  | case3 n s h1 =>
    have he : takeHashesUpTo (n + 1) s = (0, s) := by
      rw [takeHashesUpTo.eq_def]
      split <;> simp_all
    rw [he]

/-- `rawStrLoop` returns a suffix of its input, for any fuel. -/
theorem rawStrLoop_suffix (fuel n : Nat) (s : List (Nat × Char)) :
    (rawStrLoop fuel n s).2 <:+ s := by
  induction fuel, n, s using rawStrLoop.induct with
  | case1 n s => exact List.nil_suffix
  | case2 f n => simp [rawStrLoop]
  | case3 f n i rest r h =>
    simp only [rawStrLoop]
    split
    · exact suffix_cons_of _ (takeHashesUpTo_suffix n rest)
    · next hne => exact absurd h hne
  | case4 f n i rest r h ih =>
    simp only [rawStrLoop]
    split
    · next hc => exact absurd hc h
    · exact suffix_cons_of _ (ih.trans (takeHashesUpTo_suffix n rest))
  | case5 f n hd rest h1 ih =>
    have he : rawStrLoop (f + 1) n (hd :: rest) = rawStrLoop f n rest := by
      rw [rawStrLoop.eq_def]
      split <;> simp_all
    rw [he]
    exact suffix_cons_of _ ih

/-- `rawStrLit` returns a suffix of its input. -/
theorem rawStrLit_suffix (s : List (Nat × Char)) : (rawStrLit s).2 <:+ s := by
  rw [rawStrLit]
  split
  · next i rest heq =>
      exact ((rawStrLoop_suffix _ _ rest).trans
        (suffix_cons_of _ List.suffix_rfl)).trans
        (heq ▸ countHashes_suffix s)
  · exact countHashes_suffix s

/-- `skipNonDelim` returns a suffix of its input. -/
theorem skipNonDelim_suffix (s : List (Nat × Char)) : skipNonDelim s <:+ s := by
  induction s with
  | nil => simp [skipNonDelim]
  | cons x rest ih =>
    obtain ⟨i, c⟩ := x
    by_cases h : isDelim c
    · rw [skipNonDelim, if_pos h]
    · rw [skipNonDelim, if_neg h]
      exact suffix_cons_of _ ih

/-- `rawIdentTok` returns a suffix of its input. -/
theorem rawIdentTok_suffix (s : List (Nat × Char)) : (rawIdentTok s).2 <:+ s :=
  (skipNonDelim_suffix (s.drop 1)).trans (List.drop_suffix 1 s)

/-- `identEnd` returns a suffix of its input. -/
theorem identEnd_suffix (tl : Nat) (s : List (Nat × Char)) : (identEnd tl s).2 <:+ s := by
  induction s with
  | nil => simp [identEnd]
  | cons x rest ih =>
    obtain ⟨i, c⟩ := x
    by_cases h : isDelim c
    · rw [identEnd, if_pos h]
    · rw [identEnd, if_neg h]
      exact suffix_cons_of _ ih

/-- `identTok` returns a suffix of its input. -/
theorem identTok_suffix (text : List Char) (start : Nat) (s : List (Nat × Char)) :
    (identTok text start s).2 <:+ s :=
  identEnd_suffix (utf8Len text) s

/-- The token dispatch returns a suffix of its input. -/
theorem dispatchTok_suffix (text : List Char) (start : Nat) (ch : Char)
    (s : List (Nat × Char)) : (dispatchTok text start ch s).2 <:+ s := by
  unfold dispatchTok
  by_cases h1 : ch = '#'
  · rw [if_pos h1]
    repeat' split
    all_goals
      first
      | exact List.suffix_rfl
      | exact List.nil_suffix
      | exact attributeTok_suffix _
      | exact charLit_suffix _
      | exact strLit_suffix _
      | exact rawStrLit_suffix _
      | exact rawIdentTok_suffix _
      | exact identTok_suffix _ _ _
      | exact (rawStrLit_suffix _).trans (List.drop_suffix 1 _)
      | exact suffix_cons_of _ (blockCommentLoop_suffix 1 _)
      | exact suffix_cons_of _ (charLitOrLifetimeLoop_suffix _)
      | exact suffix_cons_of _ (charLit_suffix _)
      | exact suffix_cons_of _ (strLit_suffix _)
      | exact suffix_cons_of _ List.suffix_rfl
      | exact skipNonDelim_suffix _
  rw [if_neg h1]
  by_cases h2 : ch = '/'
  · rw [if_pos h2]
    repeat' split
    all_goals
      first
      | exact List.suffix_rfl
      | exact List.nil_suffix
      | exact attributeTok_suffix _
      | exact charLit_suffix _
      | exact strLit_suffix _
      | exact rawStrLit_suffix _
      | exact rawIdentTok_suffix _
      | exact identTok_suffix _ _ _
      | exact (rawStrLit_suffix _).trans (List.drop_suffix 1 _)
      | exact suffix_cons_of _ (blockCommentLoop_suffix 1 _)
      | exact suffix_cons_of _ (charLitOrLifetimeLoop_suffix _)
      | exact suffix_cons_of _ (charLit_suffix _)
      | exact suffix_cons_of _ (strLit_suffix _)
      | exact suffix_cons_of _ List.suffix_rfl
      | exact skipNonDelim_suffix _
  rw [if_neg h2]
  by_cases h3 : ch = '\''
  · rw [if_pos h3]
    repeat' split
    all_goals
      first
      | exact List.suffix_rfl
      | exact List.nil_suffix
      | exact attributeTok_suffix _
      | exact charLit_suffix _
      | exact strLit_suffix _
      | exact rawStrLit_suffix _
      | exact rawIdentTok_suffix _
      | exact identTok_suffix _ _ _
      | exact (rawStrLit_suffix _).trans (List.drop_suffix 1 _)
      | exact suffix_cons_of _ (blockCommentLoop_suffix 1 _)
      | exact suffix_cons_of _ (charLitOrLifetimeLoop_suffix _)
      | exact suffix_cons_of _ (charLit_suffix _)
      | exact suffix_cons_of _ (strLit_suffix _)
      | exact suffix_cons_of _ List.suffix_rfl
      | exact skipNonDelim_suffix _
  rw [if_neg h3]
  by_cases h4 : ch = '"'
  · rw [if_pos h4]
    repeat' split
    all_goals
      first
      | exact List.suffix_rfl
      | exact List.nil_suffix
      | exact attributeTok_suffix _
      | exact charLit_suffix _
      | exact strLit_suffix _
      | exact rawStrLit_suffix _
      | exact rawIdentTok_suffix _
      | exact identTok_suffix _ _ _
      | exact (rawStrLit_suffix _).trans (List.drop_suffix 1 _)
      | exact suffix_cons_of _ (blockCommentLoop_suffix 1 _)
      | exact suffix_cons_of _ (charLitOrLifetimeLoop_suffix _)
      | exact suffix_cons_of _ (charLit_suffix _)
      | exact suffix_cons_of _ (strLit_suffix _)
      | exact suffix_cons_of _ List.suffix_rfl
      | exact skipNonDelim_suffix _
  rw [if_neg h4]
  by_cases h5 : ch = 'r'
  · rw [if_pos h5]
    repeat' split
    all_goals
      first
      | exact List.suffix_rfl
      | exact List.nil_suffix
      | exact attributeTok_suffix _
      | exact charLit_suffix _
      | exact strLit_suffix _
      | exact rawStrLit_suffix _
      | exact rawIdentTok_suffix _
      | exact identTok_suffix _ _ _
      | exact (rawStrLit_suffix _).trans (List.drop_suffix 1 _)
      | exact suffix_cons_of _ (blockCommentLoop_suffix 1 _)
      | exact suffix_cons_of _ (charLitOrLifetimeLoop_suffix _)
      | exact suffix_cons_of _ (charLit_suffix _)
      | exact suffix_cons_of _ (strLit_suffix _)
      | exact suffix_cons_of _ List.suffix_rfl
      | exact skipNonDelim_suffix _
  rw [if_neg h5]
  by_cases h6 : ch = 'b'
  · rw [if_pos h6]
    repeat' split
    all_goals
      first
      | exact List.suffix_rfl
      | exact List.nil_suffix
      | exact attributeTok_suffix _
      | exact charLit_suffix _
      | exact strLit_suffix _
      | exact rawStrLit_suffix _
      | exact rawIdentTok_suffix _
      | exact identTok_suffix _ _ _
      | exact (rawStrLit_suffix _).trans (List.drop_suffix 1 _)
      | exact suffix_cons_of _ (blockCommentLoop_suffix 1 _)
      | exact suffix_cons_of _ (charLitOrLifetimeLoop_suffix _)
      | exact suffix_cons_of _ (charLit_suffix _)
      | exact suffix_cons_of _ (strLit_suffix _)
      | exact suffix_cons_of _ List.suffix_rfl
      | exact skipNonDelim_suffix _
  rw [if_neg h6]
  by_cases h7 : ch = '('
  · rw [if_pos h7]
    repeat' split
    all_goals
      first
      | exact List.suffix_rfl
      | exact List.nil_suffix
      | exact attributeTok_suffix _
      | exact charLit_suffix _
      | exact strLit_suffix _
      | exact rawStrLit_suffix _
      | exact rawIdentTok_suffix _
      | exact identTok_suffix _ _ _
      | exact (rawStrLit_suffix _).trans (List.drop_suffix 1 _)
      | exact suffix_cons_of _ (blockCommentLoop_suffix 1 _)
      | exact suffix_cons_of _ (charLitOrLifetimeLoop_suffix _)
      | exact suffix_cons_of _ (charLit_suffix _)
      | exact suffix_cons_of _ (strLit_suffix _)
      | exact suffix_cons_of _ List.suffix_rfl
      | exact skipNonDelim_suffix _
  rw [if_neg h7]
  by_cases h8 : ch = '?'
  · rw [if_pos h8]
    repeat' split
    all_goals
      first
      | exact List.suffix_rfl
      | exact List.nil_suffix
      | exact attributeTok_suffix _
      | exact charLit_suffix _
      | exact strLit_suffix _
      | exact rawStrLit_suffix _
      | exact rawIdentTok_suffix _
      | exact identTok_suffix _ _ _
      | exact (rawStrLit_suffix _).trans (List.drop_suffix 1 _)
      | exact suffix_cons_of _ (blockCommentLoop_suffix 1 _)
      | exact suffix_cons_of _ (charLitOrLifetimeLoop_suffix _)
      | exact suffix_cons_of _ (charLit_suffix _)
      | exact suffix_cons_of _ (strLit_suffix _)
      | exact suffix_cons_of _ List.suffix_rfl
      | exact skipNonDelim_suffix _
  rw [if_neg h8]
  by_cases h9 : ch = '!'
  · rw [if_pos h9]
    repeat' split
    all_goals
      first
      | exact List.suffix_rfl
      | exact List.nil_suffix
      | exact attributeTok_suffix _
      | exact charLit_suffix _
      | exact strLit_suffix _
      | exact rawStrLit_suffix _
      | exact rawIdentTok_suffix _
      | exact identTok_suffix _ _ _
      | exact (rawStrLit_suffix _).trans (List.drop_suffix 1 _)
      | exact suffix_cons_of _ (blockCommentLoop_suffix 1 _)
      | exact suffix_cons_of _ (charLitOrLifetimeLoop_suffix _)
      | exact suffix_cons_of _ (charLit_suffix _)
      | exact suffix_cons_of _ (strLit_suffix _)
      | exact suffix_cons_of _ List.suffix_rfl
      | exact skipNonDelim_suffix _
  rw [if_neg h9]
  by_cases h10 : ch = ':'
  · rw [if_pos h10]
    repeat' split
    all_goals
      first
      | exact List.suffix_rfl
      | exact List.nil_suffix
      | exact attributeTok_suffix _
      | exact charLit_suffix _
      | exact strLit_suffix _
      | exact rawStrLit_suffix _
      | exact rawIdentTok_suffix _
      | exact identTok_suffix _ _ _
      | exact (rawStrLit_suffix _).trans (List.drop_suffix 1 _)
      | exact suffix_cons_of _ (blockCommentLoop_suffix 1 _)
      | exact suffix_cons_of _ (charLitOrLifetimeLoop_suffix _)
      | exact suffix_cons_of _ (charLit_suffix _)
      | exact suffix_cons_of _ (strLit_suffix _)
      | exact suffix_cons_of _ List.suffix_rfl
      | exact skipNonDelim_suffix _
  rw [if_neg h10]
  by_cases h11 : isDelim ch
  · rw [if_pos h11]
    repeat' split
    all_goals
      first
      | exact List.suffix_rfl
      | exact List.nil_suffix
      | exact attributeTok_suffix _
      | exact charLit_suffix _
      | exact strLit_suffix _
      | exact rawStrLit_suffix _
      | exact rawIdentTok_suffix _
      | exact identTok_suffix _ _ _
      | exact (rawStrLit_suffix _).trans (List.drop_suffix 1 _)
      | exact suffix_cons_of _ (blockCommentLoop_suffix 1 _)
      | exact suffix_cons_of _ (charLitOrLifetimeLoop_suffix _)
      | exact suffix_cons_of _ (charLit_suffix _)
      | exact suffix_cons_of _ (strLit_suffix _)
      | exact suffix_cons_of _ List.suffix_rfl
      | exact skipNonDelim_suffix _
  rw [if_neg h11]
  by_cases h12 : isAsciiUppercase ch
  · rw [if_pos h12]
    repeat' split
    all_goals
      first
      | exact List.suffix_rfl
      | exact List.nil_suffix
      | exact attributeTok_suffix _
      | exact charLit_suffix _
      | exact strLit_suffix _
      | exact rawStrLit_suffix _
      | exact rawIdentTok_suffix _
      | exact identTok_suffix _ _ _
      | exact (rawStrLit_suffix _).trans (List.drop_suffix 1 _)
      | exact suffix_cons_of _ (blockCommentLoop_suffix 1 _)
      | exact suffix_cons_of _ (charLitOrLifetimeLoop_suffix _)
      | exact suffix_cons_of _ (charLit_suffix _)
      | exact suffix_cons_of _ (strLit_suffix _)
      | exact suffix_cons_of _ List.suffix_rfl
      | exact skipNonDelim_suffix _
  rw [if_neg h12]
  exact identTok_suffix _ _ _

/-- `findNonWs` strictly shrinks the stream when it finds something. -/
theorem findNonWs_length (s : List (Nat × Char)) :
    ∀ p s', findNonWs s = some (p, s') → s'.length < s.length := by
  induction s with
  | nil => intro p s' h; simp [findNonWs] at h
  | cons x rest ih =>
    intro p s' h
    obtain ⟨i, c⟩ := x
    by_cases hw : isAsciiWhitespace c
    · rw [findNonWs, if_pos hw] at h
      exact Nat.lt_trans (ih p s' h) (by simp)
    · rw [findNonWs, if_neg hw] at h
      have h2 : rest = s' := congrArg Prod.snd (Option.some.inj h)
      subst h2
      simp

/-- `nextToken` consumes at least one stream element and returns a
suffix of its input stream. -/
theorem nextToken_suffix (text : List Char) (s0 : List (Nat × Char)) :
    ∀ t s', nextToken text s0 = some (t, s') → s' <:+ s0 ∧ s'.length < s0.length := by
  intro t s' h
  rw [nextToken] at h
  cases hf : findNonWs s0 with
  | none => rw [hf] at h; simp at h
  | some ps =>
    obtain ⟨⟨start, ch⟩, s⟩ := ps
    rw [hf] at h
    simp only at h
    have hs' : (dispatchTok text start ch s).2 = s' :=
      congrArg Prod.snd (Option.some.inj h)
    subst hs'
    have h1 := dispatchTok_suffix text start ch s
    have h2 := findNonWs_suffix s0 _ s hf
    have h3 := findNonWs_length s0 _ s hf
    exact ⟨h1.trans h2, lt_of_le_of_lt h1.length_le h3⟩

end Kilo

namespace Kilo

/-! ### Token spans stay inside the text (towards the `faces` write
bounds of `Rust::highlight_row`). -/

/-- Every offset produced by `char_indices` is below the end of the
string. -/
theorem charIndices_fst_lt (s : List Char) :
    ∀ off p, p ∈ charIndices off s → p.1 < off + utf8Len s := by
  induction s with
  | nil => intro off p h; simp [charIndices] at h
  | cons c t ih =>
    intro off p h
    rw [charIndices] at h
    rcases List.mem_cons.mp h with rfl | h
    · have := c.utf8Size_pos
      simp only [utf8Len, List.map_cons, List.sum_cons]
      omega
    · have := ih (off + c.utf8Size) p h
      simp only [utf8Len, List.map_cons, List.sum_cons] at this ⊢
      omega

/-- A token's span end is the text length or the offset of the first
unconsumed stream element. -/
theorem nextToken_stop (text : List Char) (s0 : List (Nat × Char)) :
    ∀ t s', nextToken text s0 = some (t, s') →
      t.stop = utf8Len text ∨ ∃ c, (t.stop, c) ∈ s' := by
  intro t s' h
  rw [nextToken] at h
  cases hf : findNonWs s0 with
  | none => rw [hf] at h; simp at h
  | some ps =>
    obtain ⟨⟨start, ch⟩, s⟩ := ps
    rw [hf] at h
    simp only at h
    have ht : t = ⟨(dispatchTok text start ch s).1, start,
        match (dispatchTok text start ch s).2 with
        | (i, _) :: _ => i
        | [] => utf8Len text⟩ :=
      (congrArg Prod.fst (Option.some.inj h)).symm
    have hs' : (dispatchTok text start ch s).2 = s' :=
      congrArg Prod.snd (Option.some.inj h)
    subst hs'
    cases hh : (dispatchTok text start ch s).2 with
    | nil =>
      left
      rw [ht]
      simp [hh]
    | cons q r =>
      right
      refine ⟨q.2, ?_⟩
      rw [ht]
      simp only [hh]
      cases q
      simp

/-- If every stream offset is at most the text length, every produced
token's span end is at most the text length. -/
theorem tokenListFuel_stop_le (text : List Char) :
    ∀ fuel (s : List (Nat × Char)), (∀ p ∈ s, p.1 ≤ utf8Len text) →
      ∀ t ∈ tokenListFuel text fuel s, t.stop ≤ utf8Len text := by
  intro fuel
  induction fuel with
  | zero => intro s hP t ht; simp [tokenListFuel] at ht
  | succ f ih =>
    intro s hP t ht
    rw [tokenListFuel] at ht
    cases hn : nextToken text s with
    | none => rw [hn] at ht; simp at ht
    | some ts0 =>
      obtain ⟨t0, s'⟩ := ts0
      rw [hn] at ht
      have hsub : ∀ p, p ∈ s' → p ∈ s := fun p hp =>
        ((nextToken_suffix text s t0 s' hn).1.subset hp)
      rcases List.mem_cons.mp ht with rfl | ht
      · rcases nextToken_stop text s t s' hn with he | ⟨c, hc⟩
        · exact le_of_eq he
        · exact hP _ (hsub _ hc)
      · exact ih s' (fun p hp => hP p (hsub p hp)) t ht

/-- As soon as the first `nextToken` on a chained stream lands back in
the text's own stream, every token's span end is bounded by the text
length. -/
theorem tokenListFuel_stop_le_chain (text : List Char) (s : List (Nat × Char)) (fuel : Nat)
    (H : ∀ t1 s1, nextToken text s = some (t1, s1) → s1 <:+ charIndices 0 text) :
    ∀ t ∈ tokenListFuel text fuel s, t.stop ≤ utf8Len text := by
  intro t ht
  cases fuel with
  | zero => simp [tokenListFuel] at ht
  | succ f =>
    rw [tokenListFuel] at ht
    cases hn : nextToken text s with
    | none => rw [hn] at ht; simp at ht
    | some ts0 =>
      obtain ⟨t0, s'⟩ := ts0
      rw [hn] at ht
      have hs' : s' <:+ charIndices 0 text := H t0 s' hn
      have hP : ∀ p ∈ s', p.1 ≤ utf8Len text := fun p hp =>
        le_of_lt (by simpa using charIndices_fst_lt text 0 p (hs'.subset hp))
      rcases List.mem_cons.mp ht with rfl | ht
      · rcases nextToken_stop text s t s' hn with he | ⟨c, hc⟩
        · exact le_of_eq he
        · exact hP _ hc
      · exact tokenListFuel_stop_le text f s' hP t ht

end Kilo

namespace Kilo

/-- A context with a live comment bit has a nonzero decoded depth. -/
theorem comment_depth_pos (hl : Nat) (h : hl &&& IN_COMMENT ≠ 0) : 1 ≤ hl >>> 16 := by
  by_contra hc
  have h0 : hl >>> 16 = 0 := by omega
  have hlt : hl < 2 ^ 16 := by
    rw [Nat.shiftRight_eq_div_pow] at h0
    norm_num at h0 ⊢
    omega
  apply h
  apply Nat.eq_of_testBit_eq
  intro i
  simp only [Nat.testBit_and, Nat.zero_testBit]
  by_cases hi : i < 16
  · have hm : Nat.testBit IN_COMMENT i = false := by
      have he : IN_COMMENT = 255 <<< 16 := by decide
      rw [he, Nat.testBit_shiftLeft]
      simp [Nat.not_le.mpr hi]
    simp [hm]
  · have hx : Nat.testBit hl i = false :=
      Nat.testBit_lt_two_pow
        (lt_of_lt_of_le hlt (Nat.pow_le_pow_right (by norm_num) (by omega)))
    simp [hx]

/-- An `#[` context is fully consumed by the first token: the stream
afterwards is what the attribute search leaves of the text. -/
theorem nextToken_ctx_attr (text : List Char) (ts : List (Nat × Char)) :
    ∃ t, nextToken text ((0, '#') :: (1, '[') :: ts) =
      some (t, (findCharIs ']' ts).2) :=
  ⟨_, rfl⟩

/-- A `"` context is fully consumed by the first token. -/
theorem nextToken_ctx_str (text : List Char) (ts : List (Nat × Char)) :
    ∃ t, nextToken text ((0, '"') :: ts) = some (t, (strLit ts).2) :=
  ⟨_, rfl⟩

/-- A block-comment context prefix only raises the depth: scanning it
never produces a `*/`. -/
theorem blockCommentLoop_commentOpens (k : Nat) :
    ∀ off d0 ts, blockCommentLoop d0 (charIndices off (commentOpens k) ++ ts) =
      blockCommentLoop (d0 + k) ts := by
  induction k with
  | zero => intro off d0 ts; simp [commentOpens, charIndices]
  | succ k ih =>
    intro off d0 ts
    have e1 : charIndices off (commentOpens (k + 1)) ++ ts =
        (off, '/') :: (off + 1, '*') :: (charIndices (off + 2) (commentOpens k) ++ ts) := rfl
    rw [e1]
    simp only [blockCommentLoop]
    rw [ih (off + 2) (d0 + 1) ts]
    ring_nf

/-- A `/*`⁺ comment context is fully consumed by the first token; the
line is scanned as a block comment continuing at the stored depth. -/
theorem nextToken_ctx_comment (text : List Char) (d : Nat) (hd : 1 ≤ d)
    (ts : List (Nat × Char)) :
    ∃ t, nextToken text (charIndices 0 (commentOpens d) ++ ts) =
      some (t, (blockCommentLoop d ts).2) := by
  obtain ⟨k, rfl⟩ : ∃ k, d = k + 1 := ⟨d - 1, by omega⟩
  refine ⟨⟨(blockCommentLoop (k + 1) ts).1, 0,
      match (blockCommentLoop (k + 1) ts).2 with
      | (i, _) :: _ => i
      | [] => utf8Len text⟩, ?_⟩
  have e1 : charIndices 0 (commentOpens (k + 1)) ++ ts =
      (0, '/') :: (1, '*') :: (charIndices 2 (commentOpens k) ++ ts) := rfl
  rw [e1]
  have e2 : nextToken text ((0, '/') :: (1, '*') :: (charIndices 2 (commentOpens k) ++ ts)) =
      some (⟨(blockCommentLoop 1 (charIndices 2 (commentOpens k) ++ ts)).1, 0,
          match (blockCommentLoop 1 (charIndices 2 (commentOpens k) ++ ts)).2 with
          | (i, _) :: _ => i
          | [] => utf8Len text⟩,
        (blockCommentLoop 1 (charIndices 2 (commentOpens k) ++ ts)).2) := rfl
  rw [e2, blockCommentLoop_commentOpens k 2 1 ts, Nat.add_comm 1 k]

/-- The opening-hash loop consumes exactly the context's hashes, leaving
the context's quote on top of the text stream. -/
theorem countHashes_chain (k : Nat) :
    ∀ off ts, countHashes (charIndices off (List.replicate k '#' ++ ['"']) ++ ts) =
      (k, (off + k, '"') :: ts) := by
  induction k with
  | zero => intro off ts; rfl
  | succ k ih =>
    intro off ts
    have e1 : charIndices off (List.replicate (k + 1) '#' ++ ['"']) ++ ts =
        (off, '#') :: (charIndices (off + 1) (List.replicate k '#' ++ ['"']) ++ ts) := rfl
    have ha : off + 1 + k = off + (k + 1) := by omega
    rw [e1]
    simp only [countHashes]
    rw [ih (off + 1) ts, ha]

/-- An `r#…#"` raw-string context is fully consumed by the first token;
the line is scanned by the raw-string loop with the stored hash count. -/
theorem nextToken_ctx_raw (text : List Char) (n : Nat) (ts : List (Nat × Char)) :
    ∃ t, nextToken text (charIndices 0 ('r' :: (List.replicate n '#' ++ ['"'])) ++ ts) =
      some (t, (rawStrLoop (ts.length + 1) n ts).2) := by
  cases n with
  | zero => exact ⟨_, rfl⟩
  | succ k =>
    cases k with
    | zero => exact ⟨_, rfl⟩
    | succ j =>
      refine ⟨⟨(rawStrLoop (ts.length + 1) (j + 2) ts).1, 0,
          match (rawStrLoop (ts.length + 1) (j + 2) ts).2 with
          | (i, _) :: _ => i
          | [] => utf8Len text⟩, ?_⟩
      have e1 : charIndices 0 ('r' :: (List.replicate (j + 2) '#' ++ ['"'])) ++ ts =
          (0, 'r') :: (1, '#') :: (2, '#') ::
            (charIndices 3 (List.replicate j '#' ++ ['"']) ++ ts) := rfl
      rw [e1]
      have e3 : rawStrLit ((1, '#') :: (2, '#') ::
          (charIndices 3 (List.replicate j '#' ++ ['"']) ++ ts)) =
          rawStrLoop (ts.length + 1) (j + 2) ts := by
        have hc := countHashes_chain (j + 2) 1 ts
        have e4 : charIndices 1 (List.replicate (j + 2) '#' ++ ['"']) ++ ts =
            (1, '#') :: (2, '#') :: (charIndices 3 (List.replicate j '#' ++ ['"']) ++ ts) :=
          rfl
        rw [e4] at hc
        unfold rawStrLit
        rw [hc]
        rfl
      have e2 : nextToken text ((0, 'r') :: (1, '#') :: (2, '#') ::
          (charIndices 3 (List.replicate j '#' ++ ['"']) ++ ts)) =
          some (⟨(rawStrLit ((1, '#') :: (2, '#') ::
              (charIndices 3 (List.replicate j '#' ++ ['"']) ++ ts))).1, 0,
            match (rawStrLit ((1, '#') :: (2, '#') ::
                (charIndices 3 (List.replicate j '#' ++ ['"']) ++ ts))).2 with
            | (i, _) :: _ => i
            | [] => utf8Len text⟩,
          (rawStrLit ((1, '#') :: (2, '#') ::
              (charIndices 3 (List.replicate j '#' ++ ['"']) ++ ts))).2) := rfl
      rw [e2, e3]

end Kilo

namespace Kilo

/-- Every token the highlighter scans out of a row — whatever the stored
context — has its span end inside the row's text: the `faces[i] = face`
writes of `highlight_row` all hit existing entries. -/
theorem tokenize_stop_le (hl : Nat) (text : List Char) :
    ∀ t ∈ tokenize (decodeContext hl) text, t.stop ≤ utf8Len text := by
  intro t ht
  simp only [tokenize] at ht
  by_cases h1 : hl &&& IN_ATTRIBUTE ≠ 0
  · rw [decodeContext, if_pos h1] at ht
    refine tokenListFuel_stop_le_chain text _ _ ?_ t ht
    intro t1 s1 hn
    obtain ⟨t0, he⟩ := nextToken_ctx_attr text (charIndices 0 text)
    rw [show charIndices 0 ['#', '['] ++ charIndices 0 text =
      (0, '#') :: (1, '[') :: charIndices 0 text from rfl, he] at hn
    have : (findCharIs ']' (charIndices 0 text)).2 = s1 :=
      congrArg Prod.snd (Option.some.inj hn)
    rw [← this]
    exact findCharIs_suffix ']' _
  rw [decodeContext, if_neg h1] at ht
  by_cases h2 : hl &&& IN_STRING ≠ 0
  · rw [if_pos h2] at ht
    refine tokenListFuel_stop_le_chain text _ _ ?_ t ht
    intro t1 s1 hn
    obtain ⟨t0, he⟩ := nextToken_ctx_str text (charIndices 0 text)
    rw [show charIndices 0 ['"'] ++ charIndices 0 text =
      (0, '"') :: charIndices 0 text from rfl, he] at hn
    have : (strLit (charIndices 0 text)).2 = s1 :=
      congrArg Prod.snd (Option.some.inj hn)
    rw [← this]
    exact strLit_suffix _
  rw [if_neg h2] at ht
  by_cases h3 : hl &&& IN_RAW_STRING ≠ 0
  · rw [if_pos h3] at ht
    refine tokenListFuel_stop_le_chain text _ _ ?_ t ht
    intro t1 s1 hn
    obtain ⟨t0, he⟩ := nextToken_ctx_raw text (hl >>> 8 - 1) (charIndices 0 text)
    rw [he] at hn
    have : (rawStrLoop ((charIndices 0 text).length + 1) (hl >>> 8 - 1)
        (charIndices 0 text)).2 = s1 :=
      congrArg Prod.snd (Option.some.inj hn)
    rw [← this]
    exact rawStrLoop_suffix _ _ _
  rw [if_neg h3] at ht
  by_cases h4 : hl &&& IN_COMMENT ≠ 0
  · rw [if_pos h4] at ht
    refine tokenListFuel_stop_le_chain text _ _ ?_ t ht
    intro t1 s1 hn
    obtain ⟨t0, he⟩ := nextToken_ctx_comment text (hl >>> 16) (comment_depth_pos hl h4)
      (charIndices 0 text)
    rw [he] at hn
    have : (blockCommentLoop (hl >>> 16) (charIndices 0 text)).2 = s1 :=
      congrArg Prod.snd (Option.some.inj hn)
    rw [← this]
    exact blockCommentLoop_suffix _ _
  rw [if_neg h4] at ht
  refine tokenListFuel_stop_le text _ _ ?_ t (by simpa using ht)
  intro p hp
  exact le_of_lt (by simpa using charIndices_fst_lt text 0 p hp)

end Kilo

namespace Kilo

/-! ### The outgoing context is never `UNDEFINED` -/

/-- Well-formedness of a produced token kind: an open block comment
always records a positive depth (the loop starts at 1 and returns a
closed token before the depth can reach 0). -/
def KindOk : TokenKind → Prop
  | .BlockComment true d => 1 ≤ d
  | _ => True

/-- `charLit` on a head that is neither quote nor backslash just skips
it. -/
theorem charLit_other (i : Nat) (c : Char) (rest : List (Nat × Char))
    (hc1 : c ≠ '\'') (hc2 : c ≠ '\\') : charLit ((i, c) :: rest) = charLit rest := by
  rw [charLit.eq_def]
  split <;> simp_all

/-- `strLit` on a head that is neither quote nor backslash just skips
it. -/
theorem strLit_other (i : Nat) (c : Char) (rest : List (Nat × Char))
    (hc1 : c ≠ '"') (hc2 : c ≠ '\\') : strLit ((i, c) :: rest) = strLit rest := by
  rw [strLit.eq_def]
  split <;> simp_all

/-- `rawStrLoop` on a non-quote head just skips it. -/
theorem rawStrLoop_other (f n i : Nat) (c : Char) (rest : List (Nat × Char))
    (hc : c ≠ '"') : rawStrLoop (f + 1) n ((i, c) :: rest) = rawStrLoop f n rest := by
  rw [rawStrLoop.eq_def]
  split <;> simp_all

/-- `blockCommentLoop` keeps the depth positive in its open result. -/
theorem blockCommentLoop_ok (d : Nat) (s : List (Nat × Char)) :
    1 ≤ d → KindOk (blockCommentLoop d s).1 := by
  induction d, s using blockCommentLoop.induct with
  | case1 d => intro hd; exact hd
  | case2 d i j rest ih =>
    intro hd
    simp only [blockCommentLoop]
    exact ih (by omega)
  | case3 d i j rest h =>
    intro hd
    simp only [blockCommentLoop, if_pos h]
    trivial
  | case4 d i j rest h ih =>
    intro hd
    simp only [blockCommentLoop, if_neg h]
    exact ih (by omega)
  | case5 d hd rest h1 h2 ih =>
    intro hdp
    rw [blockCommentLoop.eq_def]
    split
    · exact hdp
    · next f f1 r1 heq =>
        injection heq with e1 e2
        exact (h1 f f1 r1 e1 e2).elim
    · next f f1 r1 heq =>
        injection heq with e1 e2
        exact (h2 f f1 r1 e1 e2).elim
    · next hd1 r1 heq =>
        injection heq with e1 e2
        subst e2
        exact ih hdp

/-- `charLit` always yields the `CharLit` kind. -/
theorem charLit_ok (s : List (Nat × Char)) : KindOk (charLit s).1 := by
  induction s using charLit.induct with
  | case1 => trivial
  | case2 i rest => trivial
  | case3 i => trivial
  | case4 i hd rest ih => simpa only [charLit] using ih
  | case5 hd rest h1 h2 h3 ih =>
    obtain ⟨i, c⟩ := hd
    have hc1 : c ≠ '\'' := fun he => h1 i (by rw [he])
    have hc2 : c ≠ '\\' := by
      intro he
      cases rest with
      | nil => exact h2 i (by rw [he]) rfl
      | cons y r => exact h3 i y r (by rw [he]) rfl
    rw [charLit_other i c rest hc1 hc2]
    exact ih

/-- `strLit` always yields a `StrLit` kind. -/
theorem strLit_ok (s : List (Nat × Char)) : KindOk (strLit s).1 := by
  induction s using strLit.induct with
  | case1 => trivial
  | case2 i rest => trivial
  | case3 i => trivial
  | case4 i hd rest ih => simpa only [strLit] using ih
  | case5 hd rest h1 h2 h3 ih =>
    obtain ⟨i, c⟩ := hd
    have hc1 : c ≠ '"' := fun he => h1 i (by rw [he])
    have hc2 : c ≠ '\\' := by
      intro he
      cases rest with
      | nil => exact h2 i (by rw [he]) rfl
      | cons y r => exact h3 i y r (by rw [he]) rfl
    rw [strLit_other i c rest hc1 hc2]
    exact ih

/-- `charLitOrLifetimeLoop` yields `CharLit` or `Lifetime`. -/
theorem charLitOrLifetimeLoop_ok (s : List (Nat × Char)) :
    KindOk (charLitOrLifetimeLoop s).1 := by
  induction s with
  | nil => trivial
  | cons x rest ih =>
    obtain ⟨i, c⟩ := x
    by_cases h1 : c = '\''
    · rw [charLitOrLifetimeLoop, if_pos h1]; trivial
    · by_cases h2 : isDelim c
      · rw [charLitOrLifetimeLoop, if_neg h1, if_pos h2]; trivial
      · rw [charLitOrLifetimeLoop, if_neg h1, if_neg h2]; exact ih

/-- `rawStrLoop` always yields a `RawStrLit` kind. -/
theorem rawStrLoop_ok (fuel n : Nat) (s : List (Nat × Char)) :
    KindOk (rawStrLoop fuel n s).1 := by
  induction fuel, n, s using rawStrLoop.induct with
  | case1 n s => trivial
  | case2 f n => trivial
  | case3 f n i rest r h =>
    simp only [rawStrLoop]
    split
    · trivial
    · next hne => exact absurd h hne
  | case4 f n i rest r h ih =>
    simp only [rawStrLoop]
    split
    · next hc => exact absurd hc h
    · exact ih
  | case5 f n hd rest h1 ih =>
    obtain ⟨i, c⟩ := hd
    have hc : c ≠ '"' := fun he => h1 i (by rw [he])
    rw [rawStrLoop_other f n i c rest hc]
    exact ih

/-- `rawStrLit` yields a `RawStrLit` or `Punct` kind. -/
theorem rawStrLit_ok (s : List (Nat × Char)) : KindOk (rawStrLit s).1 := by
  rw [rawStrLit]
  split
  · exact rawStrLoop_ok _ _ _
  · trivial

/-- `classifyIdent` yields identifier-family kinds. -/
theorem classifyIdent_ok (w : List Char) : KindOk (classifyIdent w) := by
  unfold classifyIdent
  repeat' split
  all_goals trivial

/-- `identTok` yields identifier-family kinds. -/
theorem identTok_ok (text : List Char) (start : Nat) (s : List (Nat × Char)) :
    KindOk (identTok text start s).1 :=
  classifyIdent_ok _

/-- Every kind the dispatch yields is well-formed. -/
theorem dispatchTok_ok (text : List Char) (start : Nat) (ch : Char)
    (s : List (Nat × Char)) : KindOk (dispatchTok text start ch s).1 := by
  unfold dispatchTok
  by_cases h1 : ch = '#'
  · rw [if_pos h1]
    split <;> trivial
  rw [if_neg h1]
  by_cases h2 : ch = '/'
  · rw [if_pos h2]
    split
    · trivial
    · exact blockCommentLoop_ok 1 _ (le_refl 1)
    · trivial
  rw [if_neg h2]
  by_cases h3 : ch = '\''
  · rw [if_pos h3]
    split
    · trivial
    · split
      · exact charLit_ok _
      · exact charLitOrLifetimeLoop_ok _
  rw [if_neg h3]
  by_cases h4 : ch = '"'
  · rw [if_pos h4]
    exact strLit_ok _
  rw [if_neg h4]
  by_cases h5 : ch = 'r'
  · rw [if_pos h5]
    split
    · exact rawStrLit_ok _
    · split
      · exact rawStrLit_ok _
      · trivial
    · exact rawStrLit_ok _
    · exact identTok_ok _ _ _
  rw [if_neg h5]
  by_cases h6 : ch = 'b'
  · rw [if_pos h6]
    split
    · exact charLit_ok _
    · exact strLit_ok _
    · exact rawStrLit_ok _
    · exact rawStrLit_ok _
    · exact identTok_ok _ _ _
  rw [if_neg h6]
  by_cases h7 : ch = '('
  · rw [if_pos h7]; trivial
  rw [if_neg h7]
  by_cases h8 : ch = '?'
  · rw [if_pos h8]; trivial
  rw [if_neg h8]
  by_cases h9 : ch = '!'
  · rw [if_pos h9]
    split <;> trivial
  rw [if_neg h9]
  by_cases h10 : ch = ':'
  · rw [if_pos h10]
    split <;> trivial
  rw [if_neg h10]
  by_cases h11 : isDelim ch
  · rw [if_pos h11]; trivial
  rw [if_neg h11]
  by_cases h12 : isAsciiUppercase ch
  · rw [if_pos h12]; trivial
  rw [if_neg h12]
  exact identTok_ok _ _ _

/-- Every token `nextToken` yields has a well-formed kind. -/
theorem nextToken_ok (text : List Char) (s0 : List (Nat × Char)) :
    ∀ t s', nextToken text s0 = some (t, s') → KindOk t.kind := by
  intro t s' h
  rw [nextToken] at h
  cases hf : findNonWs s0 with
  | none => rw [hf] at h; simp at h
  | some ps =>
    obtain ⟨⟨start, ch⟩, s⟩ := ps
    rw [hf] at h
    simp only at h
    have ht : (⟨(dispatchTok text start ch s).1, start,
        match (dispatchTok text start ch s).2 with
        | (i, _) :: _ => i
        | [] => utf8Len text⟩ : Token) = t :=
      congrArg Prod.fst (Option.some.inj h)
    rw [← ht]
    exact dispatchTok_ok text start ch s

/-- Every token in a produced token list has a well-formed kind. -/
theorem tokenListFuel_ok (text : List Char) :
    ∀ fuel (s : List (Nat × Char)), ∀ t ∈ tokenListFuel text fuel s, KindOk t.kind := by
  intro fuel
  induction fuel with
  | zero => intro s t ht; simp [tokenListFuel] at ht
  | succ f ih =>
    intro s t ht
    rw [tokenListFuel] at ht
    cases hn : nextToken text s with
    | none => rw [hn] at ht; simp at ht
    | some ts0 =>
      obtain ⟨t0, s'⟩ := ts0
      rw [hn] at ht
      rcases List.mem_cons.mp ht with rfl | ht
      · exact nextToken_ok text s t s' hn
      · exact ih s' t ht

end Kilo

namespace Kilo

/-- Well-formedness of the carried previous-token kind. -/
def OkOpt : Option TokenKind → Prop
  | none => True
  | some k => KindOk k

/-- The last-kind output of the face-assignment loop is well-formed when
its inputs are. -/
theorem assignFaces_ok (toks : List Token) :
    ∀ prevK faces, OkOpt prevK → (∀ t ∈ toks, KindOk t.kind) →
      OkOpt (assignFaces prevK faces toks).2 := by
  induction toks with
  | nil => intro prevK faces hp _; exact hp
  | cons t rest ih =>
    intro prevK faces hp hall
    rw [assignFaces]
    exact ih _ _ (hall t (List.mem_cons_self t rest))
      (fun u hu => hall u (List.mem_cons_of_mem t hu))

/-- The face-assignment loop preserves the length of the face array. -/
theorem assignFaces_length (toks : List Token) :
    ∀ prevK faces, (assignFaces prevK faces toks).1.length = faces.length := by
  induction toks with
  | nil => intro prevK faces; rfl
  | cons t rest ih =>
    intro prevK faces
    rw [assignFaces, ih]
    simp [setRange]

/-- A well-formed last kind never encodes to the `UNDEFINED` word. -/
theorem encodeContext_ne_zero (k : Option TokenKind) (hk : OkOpt k) :
    encodeContext k ≠ 0 := by
  unfold encodeContext
  split
  · simp [IN_ATTRIBUTE]
  · simp [IN_STRING]
  · rw [Nat.shiftLeft_eq]
    simp [Nat.mul_eq_zero]
  · next =>
      rename_i d
      rw [Nat.shiftLeft_eq]
      have h2 : (2 : Nat) ^ 16 = 65536 := by norm_num
      rw [h2]
      have hd : 1 ≤ d := hk
      omega
  · simp [NORMAL]

/-- The context a processed row hands to the next row is never
`UNDEFINED`. -/
theorem highlightRow_ctx_ne_zero (r : HRow) : (highlightRow r).2 ≠ 0 := by
  rw [highlightRow]
  refine encodeContext_ne_zero _ ?_
  refine assignFaces_ok _ none _ trivial ?_
  intro t ht
  exact tokenListFuel_ok r.string _ _ t ht

/-- `highlight_row` leaves exactly one face per byte of the row text. -/
theorem highlightRow_faces_len (r : HRow) :
    (highlightRow r).1.faces.length = utf8Len r.string := by
  rw [highlightRow]
  simp [assignFaces_length]

end Kilo

namespace Kilo

/-- Invariant of the highlight loop: every row it revised has one face
per text byte and a stored context that is not `UNDEFINED`. -/
theorem highlightGo_inv (d : HRow) (rows : List HRow) :
    ∀ i ctx, (i ≠ 0 → ctx ≠ 0) → ∀ j, j < (highlightGo i ctx rows).2 →
      ((highlightGo i ctx rows).1.getD j d).faces.length =
        utf8Len ((highlightGo i ctx rows).1.getD j d).string ∧
      ((highlightGo i ctx rows).1.getD j d).hl_context ≠ 0 := by
  induction rows with
  | nil => intro i ctx _ j hj; simp [highlightGo] at hj
  | cons r rest ih =>
    intro i ctx hctx j hj
    by_cases hb : i ≠ 0 ∧ r.hl_context = ctx
    · rw [highlightGo_cons_break i ctx r rest hb] at hj
      omega
    · rw [highlightGo_cons_go i ctx r rest hb] at hj ⊢
      cases j with
      | zero =>
        simp only [List.getD_cons_zero]
        constructor
        · rw [highlightRow_faces_len, highlightRow_string]
        · rw [highlightRow_ctx]
          unfold hlEntry
          by_cases hi : i = 0
          · rw [if_pos hi]
            by_cases hu : r.hl_context = UNDEFINED
            · rw [if_pos hu]
              simp [NORMAL]
            · rw [if_neg hu]
              simpa [UNDEFINED] using hu
          · rw [if_neg hi]
            simpa using hctx hi
      | succ m =>
        simp only [List.getD_cons_succ]
        have hm : m < (highlightGo (i + 1) (highlightRow (hlEntry i ctx r)).2 rest).2 := by
          simpa using hj
        exact ih (i + 1) (highlightRow (hlEntry i ctx r)).2
          (fun _ => highlightRow_ctx_ne_zero (hlEntry i ctx r)) m hm

/-- C10: every row `highlight` revised has an attribute array with
exactly one face per byte of its text, every face write performed during
its processing lies inside that array (each token's span end is at most
the byte length), and its stored lexical context is not the `UNDEFINED`
word. -/
theorem C10_highlight_row_invariants (d : HRow) (rows : List HRow) :
    ∀ j, j < (highlight rows).2 →
      ((highlight rows).1.getD j d).faces.length =
        utf8Len ((highlight rows).1.getD j d).string ∧
      ((highlight rows).1.getD j d).hl_context ≠ UNDEFINED ∧
      ∀ t ∈ tokenize (decodeContext ((highlight rows).1.getD j d).hl_context)
          ((highlight rows).1.getD j d).string,
        t.stop ≤ utf8Len ((highlight rows).1.getD j d).string := by
  intro j hj
  obtain ⟨h1, h2⟩ := highlightGo_inv d rows 0 UNDEFINED (by simp) j hj
  exact ⟨h1, h2, tokenize_stop_le _ _⟩

/-- Concrete instantiation of the highlighter invariants on a one-row
slice. -/
theorem C10_highlight_row_invariants_witness :
    0 < (highlight [⟨[], [], 0⟩]).2 ∧
    ((highlight [⟨[], [], 0⟩]).1.getD 0 ⟨[], [], 0⟩).hl_context ≠ UNDEFINED := by
  have h := C10_highlight_row_invariants ⟨[], [], 0⟩ [⟨[], [], 0⟩] 0 (by decide)
  exact ⟨by decide, h.2.1⟩

end Kilo

namespace Kilo

/-! ### The row coordinate model (`src/row.rs`)

A character is abstracted to the data `Row::update` consults: whether it
is the tab character, its display width (`ch.width().unwrap_or(0)`), and
its UTF-8 byte length (the step of `char_indices`).  The four `UintVec`
coordinate tables become lists of naturals; `UintVec::get` becomes a
defaulted lookup (`row.rs` treats an out-of-range `get` as a contract
violation, never as a recoverable case). -/

/-- The per-character data `Row::update` reads. -/
structure Ch where
  isTab : Bool
  width : Nat
  bytes : Nat
deriving DecidableEq, Repr

/-- `TAB_WIDTH` from `row.rs`. -/
def TAB_WIDTH : Nat := 4

/-- The space character pushed into `render` when expanding a tab. -/
def spaceCh : Ch := ⟨false, 1, 1⟩

/-- Total byte length of a character sequence (Rust `String::len`). -/
def bytesLen (l : List Ch) : Nat := (l.map Ch.bytes).sum

/-- Total display width of a character sequence. -/
def colsLen (l : List Ch) : Nat := (l.map Ch.width).sum

/-- The state of the `Row::update` scan after some characters: the four
tables built so far and the rendered characters so far. -/
structure ScanOut where
  cx_to_rx : List Nat
  rx_to_cx : List Nat
  cx_to_idx : List Nat
  rx_to_idx : List Nat
  render : List Ch
deriving DecidableEq, Repr

/-- The loop of `Row::update` as explicit state passing: `cx` is the
enumeration index, `col` the number of render columns so far
(`rx_to_idx.len()`), `idx` the byte offset into the text, and `rlen` the
byte length of `render` so far.  A tab pushes `TAB_WIDTH - col %
TAB_WIDTH` single-space columns, each recording the render byte offset
before its space is pushed; any other character pushes one column entry
per display cell, all recording the current render length, and then the
character itself. -/
def scan (cx col idx rlen : Nat) : List Ch → ScanOut
  | [] => ⟨[], [], [], [], []⟩
  | ch :: rest =>
    if ch.isTab then
      let k := TAB_WIDTH - col % TAB_WIDTH
      let r := scan (cx + 1) (col + k) (idx + ch.bytes) (rlen + k) rest
      ⟨col :: r.cx_to_rx,
       List.replicate k cx ++ r.rx_to_cx,
       idx :: r.cx_to_idx,
       (List.range k).map (fun t => rlen + t) ++ r.rx_to_idx,
       List.replicate k spaceCh ++ r.render⟩
    else
      let r := scan (cx + 1) (col + ch.width) (idx + ch.bytes) (rlen + ch.bytes) rest
      ⟨col :: r.cx_to_rx,
       List.replicate ch.width cx ++ r.rx_to_cx,
       idx :: r.cx_to_idx,
       List.replicate ch.width rlen ++ r.rx_to_idx,
       ch :: r.render⟩

/-- A `Row`: the text, the rendered form, and the four coordinate
tables. -/
structure Row where
  string : List Ch
  render : List Ch
  cx_to_rx : List Nat
  rx_to_cx : List Nat
  cx_to_idx : List Nat
  rx_to_idx : List Nat
deriving DecidableEq, Repr

/-- `UintVec::get`, as a defaulted list lookup. -/
def vget (l : List Nat) (i : Nat) : Nat := l.getD i 0

/-- `Row::update`: run the scan from the empty state and append the four
sentinel entries (`rx_to_idx.len()`, `cx_to_idx.len()`, `string.len()`,
`render.len()`, in the source's push order). -/
def Row.update (string : List Ch) : Row :=
  let sc := scan 0 0 0 0 string
  ⟨string, sc.render,
   sc.cx_to_rx ++ [sc.rx_to_idx.length],
   sc.rx_to_cx ++ [sc.cx_to_idx.length],
   sc.cx_to_idx ++ [bytesLen string],
   sc.rx_to_idx ++ [bytesLen sc.render]⟩

/-- `Row::new`. -/
def Row.new (s : List Ch) : Row := Row.update s

/-- `Row::max_cx`. -/
def Row.max_cx (r : Row) : Nat := r.cx_to_idx.length - 1

/-- `Row::max_rx`. -/
def Row.max_rx (r : Row) : Nat := r.rx_to_idx.length - 1

/-- `String::insert` at a byte offset (on character boundaries, the only
offsets the row ever passes). -/
def insertAtByte (idx : Nat) (c : Ch) : List Ch → List Ch
  | [] => [c]
  | x :: t => if idx = 0 then c :: x :: t else x :: insertAtByte (idx - x.bytes) c t

/-- `String::remove` at a byte offset. -/
def removeAtByte (idx : Nat) : List Ch → List Ch
  | [] => []
  | x :: t => if idx = 0 then t else x :: removeAtByte (idx - x.bytes) t

/-- `String::truncate` to a byte offset. -/
def takeBytes (idx : Nat) : List Ch → List Ch
  | [] => []
  | x :: t => if idx = 0 then [] else x :: takeBytes (idx - x.bytes) t

/-- The tail `String::split_off` returns at a byte offset. -/
def dropBytes (idx : Nat) : List Ch → List Ch
  | [] => []
  | x :: t => if idx = 0 then x :: t else dropBytes (idx - x.bytes) t

/-- `Row::insert`. -/
def Row.insert (r : Row) (cx : Nat) (c : Ch) : Row :=
  Row.update (insertAtByte (vget r.cx_to_idx cx) c r.string)

/-- `Row::remove`. -/
def Row.remove (r : Row) (cx : Nat) : Row :=
  Row.update (removeAtByte (vget r.cx_to_idx cx) r.string)

/-- `Row::clear`. -/
def Row.clear (_ : Row) : Row := Row.update []

/-- `Row::truncate`. -/
def Row.truncate (r : Row) (cx : Nat) : Row :=
  Row.update (takeBytes (vget r.cx_to_idx cx) r.string)

/-- `Row::split_off`: the updated row and the split-off tail. -/
def Row.split_off (r : Row) (cx : Nat) : Row × List Ch :=
  let idx := vget r.cx_to_idx cx
  (Row.update (takeBytes idx r.string), dropBytes idx r.string)

/-- `Row::push_str`. -/
def Row.push_str (r : Row) (t : List Ch) : Row :=
  Row.update (r.string ++ t)

/-- `Row::remove_str`: split off at `to`, truncate to `from`, reattach
the tail. -/
def Row.remove_str (r : Row) (fromCx toCx : Nat) : Row :=
  let fromIdx := vget r.cx_to_idx fromCx
  let toIdx := vget r.cx_to_idx toCx
  Row.update (takeBytes fromIdx r.string ++ dropBytes toIdx r.string)

end Kilo

namespace Kilo

/-- One byte of the drawn output: a byte of the rendered unit at a given
position, or the truncation marker (the escape sequence
`\x1b[34m~\x1b[39m` of `Row::draw`, abstracted to one output symbol). -/
inductive Cell where
  | marker
  | byte (unit : Nat) (off : Nat)
deriving DecidableEq, Repr

/-- The rendered string as a flat byte list: unit `j` (the `j`-th
character of `render`) contributes one cell per byte. -/
def cellsFrom (j : Nat) : List Ch → List Cell
  | [] => []
  | u :: us => (List.range u.bytes).map (Cell.byte j) ++ cellsFrom (j + 1) us

/-- The byte list of a row's rendered form. -/
def Row.cells (r : Row) : List Cell := cellsFrom 0 r.render

/-- `Row::draw`: clip the rendered form to the column window
`[coloff, coloff+width)`, dropping a torn wide character at either edge
and emitting a truncation marker in its place, then write the byte slice
`render[rx_to_idx[start]..rx_to_idx[end]]`. -/
def Row.draw (r : Row) (coloff width : Nat) : List Cell :=
  if r.max_rx ≤ coloff then []
  else
    let start_rx := coloff
    let end_rx := min (coloff + width) r.max_rx
    let truncate_start :=
      0 < start_rx ∧ vget r.rx_to_idx start_rx = vget r.rx_to_idx (start_rx - 1)
    let truncate_end :=
      end_rx ≤ r.max_rx ∧ vget r.rx_to_idx (end_rx - 1) = vget r.rx_to_idx end_rx
    let start_rx' := if truncate_start then start_rx + 1 else start_rx
    let end_rx' := if truncate_end then end_rx - 1 else end_rx
    let start_idx := vget r.rx_to_idx start_rx'
    let end_idx := vget r.rx_to_idx end_rx'
    (if truncate_start then [Cell.marker] else []) ++
      ((r.cells.drop start_idx).take (end_idx - start_idx)) ++
      (if truncate_end then [Cell.marker] else [])

end Kilo

namespace Kilo

/-- Character-table lengths: one entry per scanned character. -/
theorem scan_cx_lengths (s : List Ch) :
    ∀ cx col idx rlen, (scan cx col idx rlen s).cx_to_rx.length = s.length ∧
      (scan cx col idx rlen s).cx_to_idx.length = s.length := by
  induction s with
  | nil => intro cx col idx rlen; simp [scan]
  | cons ch rest ih =>
    intro cx col idx rlen
    by_cases ht : ch.isTab
    · obtain ⟨h1, h2⟩ := ih (cx + 1) (col + (TAB_WIDTH - col % TAB_WIDTH))
        (idx + ch.bytes) (rlen + (TAB_WIDTH - col % TAB_WIDTH))
      simp [scan, ht, h1, h2]
    · obtain ⟨h1, h2⟩ := ih (cx + 1) (col + ch.width) (idx + ch.bytes) (rlen + ch.bytes)
      simp [scan, ht, h1, h2]

/-- Column-table lengths: one entry per display column of the rendered
form. -/
theorem scan_rx_lengths (s : List Ch) :
    ∀ cx col idx rlen, (scan cx col idx rlen s).rx_to_cx.length =
        colsLen (scan cx col idx rlen s).render ∧
      (scan cx col idx rlen s).rx_to_idx.length =
        colsLen (scan cx col idx rlen s).render := by
  induction s with
  | nil => intro cx col idx rlen; simp [scan, colsLen]
  | cons ch rest ih =>
    intro cx col idx rlen
    by_cases ht : ch.isTab
    · obtain ⟨h1, h2⟩ := ih (cx + 1) (col + (TAB_WIDTH - col % TAB_WIDTH))
        (idx + ch.bytes) (rlen + (TAB_WIDTH - col % TAB_WIDTH))
      simp [scan, ht, h1, h2, colsLen, spaceCh, List.map_replicate, List.sum_replicate,
        smul_eq_mul]
    · obtain ⟨h1, h2⟩ := ih (cx + 1) (col + ch.width) (idx + ch.bytes) (rlen + ch.bytes)
      simp [scan, ht, h1, h2, colsLen]

/-- The table shape invariant of a row, as the spec states it: each
character table has `char_count + 1` entries ending in the total render
width / total byte length, each column table has `render_width + 1`
entries ending in the character count / rendered byte length, and
`max_cx`/`max_rx` are the table lengths minus one. -/
def RowInv (r : Row) : Prop :=
  r.cx_to_rx.length = r.string.length + 1 ∧
  r.cx_to_rx.getLast? = some (colsLen r.render) ∧
  r.cx_to_idx.length = r.string.length + 1 ∧
  r.cx_to_idx.getLast? = some (bytesLen r.string) ∧
  r.rx_to_cx.length = colsLen r.render + 1 ∧
  r.rx_to_cx.getLast? = some r.string.length ∧
  r.rx_to_idx.length = colsLen r.render + 1 ∧
  r.rx_to_idx.getLast? = some (bytesLen r.render) ∧
  r.max_cx = r.string.length ∧
  r.max_rx = colsLen r.render

/-- `Row::update` establishes the table shape invariant. -/
theorem update_RowInv (s : List Ch) : RowInv (Row.update s) := by
  obtain ⟨hc1, hc2⟩ := scan_cx_lengths s 0 0 0 0
  obtain ⟨hr1, hr2⟩ := scan_rx_lengths s 0 0 0 0
  refine ⟨?_, ?_, ?_, ?_, ?_, ?_, ?_, ?_, ?_, ?_⟩ <;>
    simp [Row.update, Row.max_cx, Row.max_rx, hc1, hc2, hr1, hr2,
      List.getLast?_concat]

/-- C8: after construction and after every mutating operation, the row
satisfies the table shape invariant: `cx_to_rx`/`cx_to_idx` have
`char_count + 1` entries whose last entries are the total render width
and total byte length, `rx_to_cx`/`rx_to_idx` have `render_width + 1`
entries whose last entries are the character count and rendered byte
length, and `max_cx`/`max_rx` equal those table lengths minus one. -/
theorem C8_row_table_invariants :
    (∀ s, RowInv (Row.new s)) ∧
    (∀ (r : Row) cx c, RowInv (r.insert cx c)) ∧
    (∀ (r : Row) cx, RowInv (r.remove cx)) ∧
    (∀ r : Row, RowInv r.clear) ∧
    (∀ (r : Row) cx, RowInv (r.truncate cx)) ∧
    (∀ (r : Row) cx, RowInv (r.split_off cx).1) ∧
    (∀ (r : Row) t, RowInv (r.push_str t)) ∧
    (∀ (r : Row) a b, RowInv (r.remove_str a b)) :=
  ⟨fun s => update_RowInv s,
   fun r cx c => update_RowInv _,
   fun r cx => update_RowInv _,
   fun r => update_RowInv _,
   fun r cx => update_RowInv _,
   fun r cx => update_RowInv _,
   fun r t => update_RowInv _,
   fun r a b => update_RowInv _⟩

end Kilo

namespace Kilo

/-- The number of display columns a character contributes when the
current render width is `col`. -/
def contrib (col : Nat) (ch : Ch) : Nat :=
  if ch.isTab then TAB_WIDTH - col % TAB_WIDTH else ch.width

/-- Of the four pieces of scan state, only the running column affects
the shape of the output: the enumeration index, byte offset and render
length merely translate their tables. -/
theorem scan_shift (s : List Ch) :
    ∀ cx col idx rlen,
      scan cx col idx rlen s =
        ⟨(scan 0 col 0 0 s).cx_to_rx,
         (scan 0 col 0 0 s).rx_to_cx.map (fun a => cx + a),
         (scan 0 col 0 0 s).cx_to_idx.map (fun a => idx + a),
         (scan 0 col 0 0 s).rx_to_idx.map (fun a => rlen + a),
         (scan 0 col 0 0 s).render⟩ := by
  induction s with
  | nil => intro cx col idx rlen; simp [scan]
  | cons ch rest ih =>
    intro cx col idx rlen
    by_cases ht : ch.isTab
    · simp only [scan, ht, if_true, Nat.zero_add]
      rw [ih (cx + 1) (col + (TAB_WIDTH - col % TAB_WIDTH)) (idx + ch.bytes)
          (rlen + (TAB_WIDTH - col % TAB_WIDTH)),
        ih 1 (col + (TAB_WIDTH - col % TAB_WIDTH)) ch.bytes (TAB_WIDTH - col % TAB_WIDTH)]
      simp [List.map_map, Function.comp, Nat.add_assoc]
    · simp only [scan, ht, Bool.false_eq_true, if_false, Nat.zero_add]
      rw [ih (cx + 1) (col + ch.width) (idx + ch.bytes) (rlen + ch.bytes),
        ih 1 (col + ch.width) ch.bytes ch.bytes]
      simp [List.map_map, Function.comp, Nat.add_assoc]

end Kilo

namespace Kilo

/-- The render bytes a character contributes from column `col` (a tab's
spaces, or the character's own bytes). -/
def cbytes (col : Nat) (ch : Ch) : Nat :=
  if ch.isTab then contrib col ch else ch.bytes

/-- The rendered form of a suffix scanned from column `col`. -/
def renderOf (col : Nat) (s : List Ch) : List Ch := (scan 0 col 0 0 s).render

/-- The sentineled `cx_to_rx` table of a suffix scanned from column
`col`; entries are absolute display columns. -/
def cxrx (col : Nat) (s : List Ch) : List Nat :=
  (scan 0 col 0 0 s).cx_to_rx ++ [col + colsLen (renderOf col s)]

/-- The sentineled `rx_to_cx` table of a suffix scanned from column
`col`; entries are relative character indices. -/
def rxcx (col : Nat) (s : List Ch) : List Nat :=
  (scan 0 col 0 0 s).rx_to_cx ++ [s.length]

/-- The sentineled `rx_to_idx` table of a suffix scanned from column
`col`; entries are relative render byte offsets. -/
def rxidx (col : Nat) (s : List Ch) : List Nat :=
  (scan 0 col 0 0 s).rx_to_idx ++ [bytesLen (renderOf col s)]

/-- `colsLen` distributes over append. -/
theorem colsLen_append (a b : List Ch) : colsLen (a ++ b) = colsLen a + colsLen b := by
  simp [colsLen]

/-- `bytesLen` distributes over append. -/
theorem bytesLen_append (a b : List Ch) : bytesLen (a ++ b) = bytesLen a + bytesLen b := by
  simp [bytesLen]

/-- Replicated spaces have one column each. -/
theorem colsLen_replicate_space (k : Nat) : colsLen (List.replicate k spaceCh) = k := by
  simp [colsLen, List.map_replicate, List.sum_replicate, smul_eq_mul, spaceCh]

/-- Replicated spaces have one byte each. -/
theorem bytesLen_replicate_space (k : Nat) : bytesLen (List.replicate k spaceCh) = k := by
  simp [bytesLen, List.map_replicate, List.sum_replicate, smul_eq_mul, spaceCh]

/-- `Row::update` builds exactly the sentineled tables of the scan from
column 0. -/
theorem update_tables (s : List Ch) :
    (Row.update s).cx_to_rx = cxrx 0 s ∧
    (Row.update s).rx_to_cx = rxcx 0 s ∧
    (Row.update s).rx_to_idx = rxidx 0 s ∧
    (Row.update s).render = renderOf 0 s := by
  obtain ⟨hc1, hc2⟩ := scan_cx_lengths s 0 0 0 0
  obtain ⟨hr1, hr2⟩ := scan_rx_lengths s 0 0 0 0
  refine ⟨?_, ?_, ?_, rfl⟩ <;>
    simp [Row.update, cxrx, rxcx, rxidx, renderOf, hc2, hr2]

/-- `renderOf` at nil. -/
theorem renderOf_nil (col : Nat) : renderOf col [] = [] := rfl

/-- `renderOf` at a cons: a tab renders as its spaces, any other
character as itself. -/
theorem renderOf_cons (col : Nat) (ch : Ch) (rest : List Ch) :
    renderOf col (ch :: rest) =
      (if ch.isTab then List.replicate (contrib col ch) spaceCh else [ch]) ++
        renderOf (col + contrib col ch) rest := by
  by_cases ht : ch.isTab
  · simp only [renderOf, scan, ht, if_true, contrib, Nat.zero_add]
    rw [scan_shift rest 1 (col + (TAB_WIDTH - col % TAB_WIDTH)) ch.bytes
      (TAB_WIDTH - col % TAB_WIDTH)]
  · simp only [renderOf, scan, ht, Bool.false_eq_true, if_false, contrib, Nat.zero_add]
    rw [scan_shift rest 1 (col + ch.width) ch.bytes ch.bytes]
    simp

/-- `cxrx` at nil: only the sentinel. -/
theorem cxrx_nil (col : Nat) : cxrx col [] = [col] := by
  simp [cxrx, renderOf, scan, colsLen]

/-- `cxrx` at a cons. -/
theorem cxrx_cons (col : Nat) (ch : Ch) (rest : List Ch) :
    cxrx col (ch :: rest) = col :: cxrx (col + contrib col ch) rest := by
  have hw : colsLen (renderOf col (ch :: rest)) =
      contrib col ch + colsLen (renderOf (col + contrib col ch) rest) := by
    rw [renderOf_cons, colsLen_append]
    by_cases ht : ch.isTab
    · simp [ht, colsLen_replicate_space]
    · simp [ht, colsLen, contrib]
  by_cases ht : ch.isTab
  · simp only [cxrx, scan, ht, if_true, hw, contrib, Nat.zero_add]
    rw [scan_shift rest 1 (col + (TAB_WIDTH - col % TAB_WIDTH)) ch.bytes
      (TAB_WIDTH - col % TAB_WIDTH)]
    simp only [contrib, ht, if_true] at hw ⊢
    simp [Nat.add_assoc]
  · simp only [cxrx, scan, ht, Bool.false_eq_true, if_false, hw, contrib, Nat.zero_add]
    rw [scan_shift rest 1 (col + ch.width) ch.bytes ch.bytes]
    simp only [contrib, ht, Bool.false_eq_true, if_false] at hw ⊢
    simp [Nat.add_assoc]

/-- `rxcx` at nil: only the sentinel. -/
theorem rxcx_nil (col : Nat) : rxcx col [] = [0] := by
  simp [rxcx, scan]

/-- `rxcx` at a cons: the character's columns, then the rest with all
character indices shifted by one. -/
theorem rxcx_cons (col : Nat) (ch : Ch) (rest : List Ch) :
    rxcx col (ch :: rest) =
      List.replicate (contrib col ch) 0 ++
        (rxcx (col + contrib col ch) rest).map (fun a => 1 + a) := by
  by_cases ht : ch.isTab
  · simp only [rxcx, scan, ht, if_true, contrib, Nat.zero_add]
    rw [scan_shift rest 1 (col + (TAB_WIDTH - col % TAB_WIDTH)) ch.bytes
      (TAB_WIDTH - col % TAB_WIDTH)]
    simp [List.map_map, Function.comp, Nat.add_comm]
  · simp only [rxcx, scan, ht, Bool.false_eq_true, if_false, contrib, Nat.zero_add]
    rw [scan_shift rest 1 (col + ch.width) ch.bytes ch.bytes]
    simp [List.map_map, Function.comp, Nat.add_comm]

/-- `rxidx` at nil: only the sentinel. -/
theorem rxidx_nil (col : Nat) : rxidx col [] = [0] := by
  simp [rxidx, renderOf, scan, bytesLen]

/-- `rxidx` at a cons: the character's byte offsets, then the rest with
all offsets shifted by the bytes this character rendered. -/
theorem rxidx_cons (col : Nat) (ch : Ch) (rest : List Ch) :
    rxidx col (ch :: rest) =
      (if ch.isTab then List.range (contrib col ch) else List.replicate ch.width 0) ++
        (rxidx (col + contrib col ch) rest).map (fun a => cbytes col ch + a) := by
  have hb : bytesLen (renderOf col (ch :: rest)) =
      cbytes col ch + bytesLen (renderOf (col + contrib col ch) rest) := by
    rw [renderOf_cons, bytesLen_append]
    by_cases ht : ch.isTab
    · simp [ht, bytesLen_replicate_space, cbytes]
    · simp [ht, bytesLen, cbytes]
  by_cases ht : ch.isTab
  · simp only [rxidx, scan, ht, if_true, hb, contrib, cbytes, Nat.zero_add]
    rw [scan_shift rest 1 (col + (TAB_WIDTH - col % TAB_WIDTH)) ch.bytes
      (TAB_WIDTH - col % TAB_WIDTH)]
    simp only [contrib, cbytes, ht, if_true] at hb ⊢
    simp [List.map_map, Function.comp]
  · simp only [rxidx, scan, ht, Bool.false_eq_true, if_false, hb, contrib, cbytes, Nat.zero_add]
    rw [scan_shift rest 1 (col + ch.width) ch.bytes ch.bytes]
    simp only [contrib, cbytes, ht, Bool.false_eq_true, if_false] at hb ⊢
    simp [List.map_map, Function.comp]

end Kilo

namespace Kilo

/-- Default character for defaulted list lookups. -/
def defCh : Ch := ⟨false, 0, 0⟩

/-- Length of the sentineled `cx_to_rx` table. -/
theorem cxrx_length (col : Nat) (s : List Ch) : (cxrx col s).length = s.length + 1 := by
  simp [cxrx, (scan_cx_lengths s 0 col 0 0).1]

/-- Length of the sentineled `rx_to_cx` table. -/
theorem rxcx_length (col : Nat) (s : List Ch) :
    (rxcx col s).length = colsLen (renderOf col s) + 1 := by
  simp [rxcx, renderOf, (scan_rx_lengths s 0 col 0 0).1]

/-- Length of the sentineled `rx_to_idx` table. -/
theorem rxidx_length (col : Nat) (s : List Ch) :
    (rxidx col s).length = colsLen (renderOf col s) + 1 := by
  simp [rxidx, renderOf, (scan_rx_lengths s 0 col 0 0).2]

/-- Columns of a cons render: head contribution plus the rest. -/
theorem colsLen_renderOf_cons (col : Nat) (ch : Ch) (rest : List Ch) :
    colsLen (renderOf col (ch :: rest)) =
      contrib col ch + colsLen (renderOf (col + contrib col ch) rest) := by
  rw [renderOf_cons, colsLen_append]
  by_cases ht : ch.isTab
  · simp [ht, colsLen_replicate_space]
  · simp [ht, colsLen, contrib]

/-- Bytes of a cons render: head contribution plus the rest. -/
theorem bytesLen_renderOf_cons (col : Nat) (ch : Ch) (rest : List Ch) :
    bytesLen (renderOf col (ch :: rest)) =
      cbytes col ch + bytesLen (renderOf (col + contrib col ch) rest) := by
  rw [renderOf_cons, bytesLen_append]
  by_cases ht : ch.isTab
  · simp [ht, bytesLen_replicate_space, cbytes, contrib]
  · simp [ht, bytesLen, cbytes]

/-- Head lookup. -/
theorem vget_cons_zero (a : Nat) (l : List Nat) : vget (a :: l) 0 = a := rfl

/-- Tail lookup. -/
theorem vget_cons_succ (a : Nat) (l : List Nat) (i : Nat) :
    vget (a :: l) (i + 1) = vget l i := rfl

/-- Defaulted lookup into a prefix of an append. -/
theorem vget_append_lt (l l' : List Nat) (i : Nat) (h : i < l.length) :
    vget (l ++ l') i = vget l i := by
  induction l generalizing i with
  | nil => simp at h
  | cons x t ih =>
    cases i with
    | zero => rfl
    | succ m =>
      rw [List.cons_append, vget_cons_succ, vget_cons_succ]
      exact ih m (by simpa using h)

/-- Defaulted lookup past a prefix of an append. -/
theorem vget_append_ge (l l' : List Nat) (i : Nat) (h : l.length ≤ i) :
    vget (l ++ l') i = vget l' (i - l.length) := by
  induction l generalizing i with
  | nil => simp
  | cons x t ih =>
    cases i with
    | zero => simp at h
    | succ m =>
      rw [List.cons_append, vget_cons_succ, ih m (by simpa using h)]
      simp

/-- Defaulted lookup into a replicate block. -/
theorem vget_replicate (k a i : Nat) (h : i < k) :
    vget (List.replicate k a) i = a := by
  induction k generalizing i with
  | zero => omega
  | succ n ih =>
    cases i with
    | zero => rfl
    | succ m =>
      rw [List.replicate_succ, vget_cons_succ]
      exact ih m (by omega)

/-- Defaulted lookup commutes with an additive shift, inside bounds. -/
theorem vget_map_add (c : Nat) (l : List Nat) (i : Nat) (h : i < l.length) :
    vget (l.map (fun a => c + a)) i = c + vget l i := by
  induction l generalizing i with
  | nil => simp at h
  | cons x t ih =>
    cases i with
    | zero => rfl
    | succ m =>
      rw [List.map_cons, vget_cons_succ, vget_cons_succ]
      exact ih m (by simpa using h)

/-- Every `cx_to_rx` entry is at least the starting column. -/
theorem vget_cxrx_ge (s : List Ch) :
    ∀ col j, j ≤ s.length → col ≤ vget (cxrx col s) j := by
  induction s with
  | nil =>
    intro col j hj
    have hj0 : j = 0 := by simpa using hj
    subst hj0
    simp [cxrx_nil, vget]
  | cons ch rest ih =>
    intro col j hj
    rw [cxrx_cons]
    cases j with
    | zero => simp [vget_cons_zero]
    | succ m =>
      rw [vget_cons_succ]
      have := ih (col + contrib col ch) m (by simpa using hj)
      omega

/-- Every `cx_to_rx` entry is at most the final column. -/
theorem vget_cxrx_le (s : List Ch) :
    ∀ col j, j ≤ s.length →
      vget (cxrx col s) j ≤ col + colsLen (renderOf col s) := by
  induction s with
  | nil =>
    intro col j hj
    have hj0 : j = 0 := by simpa using hj
    subst hj0
    simp [cxrx_nil, vget, renderOf_nil, colsLen]
  | cons ch rest ih =>
    intro col j hj
    rw [cxrx_cons, colsLen_renderOf_cons]
    cases j with
    | zero => rw [vget_cons_zero]; omega
    | succ m =>
      rw [vget_cons_succ]
      have := ih (col + contrib col ch) m (by simpa using hj)
      omega

/-- A tab, or any character of positive width, contributes at least one
column. -/
theorem contrib_pos_of (col : Nat) (ch : Ch)
    (h : ch.isTab ∨ 1 ≤ ch.width) : 1 ≤ contrib col ch := by
  unfold contrib
  have hmod : col % TAB_WIDTH < TAB_WIDTH := Nat.mod_lt _ (by norm_num [TAB_WIDTH])
  rcases h with ht | hw
  · rw [if_pos ht]
    omega
  · by_cases ht : ch.isTab
    · rw [if_pos ht]
      omega
    · rw [if_neg ht]
      exact hw

/-- Generalized round trip: looking up the display column at which a
column-contributing character begins maps back to that character. -/
theorem roundtrip_gen (s : List Ch) :
    ∀ col j, j ≤ s.length →
      (j = s.length ∨ (s.getD j defCh).isTab ∨ 1 ≤ (s.getD j defCh).width) →
      vget (rxcx col s) (vget (cxrx col s) j - col) = j := by
  induction s with
  | nil =>
    intro col j hj _
    have hj0 : j = 0 := by simpa using hj
    subst hj0
    simp [cxrx_nil, rxcx_nil, vget]
  | cons ch rest ih =>
    intro col j hj hcond
    rw [cxrx_cons, rxcx_cons]
    cases j with
    | zero =>
      have hk : 1 ≤ contrib col ch := by
        rcases hcond with he | hcond
        · simp at he
        · exact contrib_pos_of col ch (by simpa using hcond)
      rw [vget_cons_zero, Nat.sub_self,
        vget_append_lt _ _ 0 (by simpa using hk),
        vget_replicate _ 0 0 hk]
    | succ m =>
      have hm : m ≤ rest.length := by simpa using hj
      have hcond' : m = rest.length ∨ (rest.getD m defCh).isTab ∨
          1 ≤ (rest.getD m defCh).width := by
        rcases hcond with he | hc
        · left
          simp only [List.length_cons] at he
          omega
        · right; simpa using hc
      have hv := ih (col + contrib col ch) m hm hcond'
      have hge := vget_cxrx_ge rest (col + contrib col ch) m hm
      have hle := vget_cxrx_le rest (col + contrib col ch) m hm
      rw [vget_cons_succ]
      set v := vget (cxrx (col + contrib col ch) rest) m with hvdef
      have h1 : (List.replicate (contrib col ch) 0).length ≤ v - col := by
        simp only [List.length_replicate]
        omega
      rw [vget_append_ge _ _ _ h1]
      simp only [List.length_replicate]
      have h2 : v - col - contrib col ch = v - (col + contrib col ch) := by omega
      rw [h2]
      have h3 : v - (col + contrib col ch) < (rxcx (col + contrib col ch) rest).length := by
        rw [rxcx_length]
        omega
      rw [vget_map_add 1 _ _ (by simpa using h3), hv]
      omega

end Kilo

namespace Kilo

/-- C7: looking up the display column at which logical character `c`
begins and mapping that column back to a character returns `c`, for
every `c` up to and including the character count, provided `c` does not
start a zero-width run (its character is a tab or has positive display
width); tabs and width-2 characters round-trip. -/
theorem C7_roundtrip (s : List Ch) (c : Nat) (hc : c ≤ s.length)
    (hcond : c = s.length ∨ (s.getD c defCh).isTab ∨ 1 ≤ (s.getD c defCh).width) :
    vget (Row.update s).rx_to_cx (vget (Row.update s).cx_to_rx c) = c := by
  obtain ⟨h1, h2, h3, h4⟩ := update_tables s
  rw [h1, h2]
  have hr := roundtrip_gen s 0 c hc hcond
  simpa using hr

/-- Concrete instantiation of the round trip: a width-2 character
followed by a tab; both indices and the sentinel round-trip. -/
theorem C7_roundtrip_witness :
    ((1 : Nat) ≤ ([⟨false, 2, 3⟩, ⟨true, 0, 1⟩] : List Ch).length) ∧
    vget (Row.update [⟨false, 2, 3⟩, ⟨true, 0, 1⟩]).rx_to_cx
      (vget (Row.update [⟨false, 2, 3⟩, ⟨true, 0, 1⟩]).cx_to_rx 1) = 1 :=
  ⟨by decide, C7_roundtrip [⟨false, 2, 3⟩, ⟨true, 0, 1⟩] 1 (by decide) (by decide)⟩

/-- The rendered unit beginning at a byte offset, if the offset is a
unit boundary. -/
def unitStartAt : List Ch → Nat → Option Ch
  | [], _ => none
  | u :: us, b =>
    if b = 0 then some u
    else if b < u.bytes then none
    else unitStartAt us (b - u.bytes)

/-- The head entry of the `cx_to_rx` table is the starting column. -/
theorem vget_cxrx_zero (col : Nat) (s : List Ch) : vget (cxrx col s) 0 = col := by
  cases s with
  | nil => simp [cxrx_nil, vget]
  | cons ch rest => rw [cxrx_cons, vget_cons_zero]

/-- Defaulted lookup into a range block. -/
theorem vget_range (k i : Nat) (h : i < k) : vget (List.range k) i = i := by
  simp [vget, List.getD_eq_getElem?_getD, List.getElem?_range h]

/-- A byte offset into the spaces of an expanded tab starts a space. -/
theorem unitStartAt_replicate_space (k : Nat) :
    ∀ t R, t < k → unitStartAt (List.replicate k spaceCh ++ R) t = some spaceCh := by
  induction k with
  | zero => intro t R ht; omega
  | succ n ih =>
    intro t R ht
    rw [List.replicate_succ, List.cons_append]
    cases t with
    | zero => rfl
    | succ m =>
      rw [unitStartAt]
      simp only [spaceCh]
      rw [if_neg (by omega), if_neg (by omega)]
      exact ih m R (by omega)

/-- Skipping a prefix of positive-byte units in a unit-boundary
lookup. -/
theorem unitStartAt_append (P : List Ch) :
    ∀ R b, (∀ u ∈ P, 1 ≤ u.bytes) →
      unitStartAt (P ++ R) (bytesLen P + b) = unitStartAt R b := by
  induction P with
  | nil => intro R b _; simp [bytesLen]
  | cons u P' ih =>
    intro R b hP
    have hu : 1 ≤ u.bytes := hP u (List.mem_cons_self u P')
    have hb : bytesLen (u :: P') = u.bytes + bytesLen P' := by simp [bytesLen]
    rw [List.cons_append, hb, unitStartAt]
    rw [if_neg (by omega), if_neg (by omega)]
    have he : u.bytes + bytesLen P' + b - u.bytes = bytesLen P' + b := by omega
    rw [he]
    exact ih R b (fun v hv => hP v (List.mem_cons_of_mem u hv))

/-- Rendered units inherit positive byte lengths from the text. -/
theorem renderOf_bytes_pos (s : List Ch) :
    ∀ col, (∀ ch ∈ s, 1 ≤ ch.bytes) → ∀ u ∈ renderOf col s, 1 ≤ u.bytes := by
  induction s with
  | nil => intro col _ u hu; simp [renderOf_nil] at hu
  | cons ch rest ih =>
    intro col hs u hu
    rw [renderOf_cons] at hu
    rcases List.mem_append.mp hu with h | h
    · by_cases ht : ch.isTab
      · rw [if_pos ht] at h
        have := List.eq_of_mem_replicate h
        subst this
        decide
      · rw [if_neg ht] at h
        simp at h
        rw [h]
        exact hs ch (List.mem_cons_self ch rest)
    · exact ih (col + contrib col ch) (fun v hv => hs v (List.mem_cons_of_mem ch hv)) u h

end Kilo

namespace Kilo

/-- Generalized tab expansion: a tab at character `cx`, beginning at
absolute display column `v`, contributes exactly `TAB_WIDTH - v %
TAB_WIDTH` columns; each of those columns maps back to `cx`, records
consecutive render byte offsets, and each offset starts an inserted
space in the rendered form. -/
theorem tab_expand_gen (s : List Ch) :
    ∀ col cx, (∀ ch ∈ s, 1 ≤ ch.bytes) → cx < s.length → (s.getD cx defCh).isTab →
      vget (cxrx col s) (cx + 1) =
        vget (cxrx col s) cx + (TAB_WIDTH - (vget (cxrx col s) cx) % TAB_WIDTH) ∧
      ∀ t, t < TAB_WIDTH - (vget (cxrx col s) cx) % TAB_WIDTH →
        vget (rxcx col s) (vget (cxrx col s) cx - col + t) = cx ∧
        vget (rxidx col s) (vget (cxrx col s) cx - col + t) =
          vget (rxidx col s) (vget (cxrx col s) cx - col) + t ∧
        unitStartAt (renderOf col s) (vget (rxidx col s) (vget (cxrx col s) cx - col + t)) =
          some spaceCh := by
  induction s with
  | nil => intro col cx _ hcx _; simp at hcx
  | cons ch rest ih =>
    intro col cx hB hcx htab
    cases cx with
    | zero =>
      have ht : ch.isTab := by simpa using htab
      have hk : contrib col ch = TAB_WIDTH - col % TAB_WIDTH := by simp [contrib, ht]
      have hv0 : vget (cxrx col (ch :: rest)) 0 = col := by
        rw [cxrx_cons, vget_cons_zero]
      have hkpos : 1 ≤ contrib col ch := contrib_pos_of col ch (Or.inl ht)
      rw [hv0]
      constructor
      · rw [cxrx_cons]
        rw [show (0 : Nat) + 1 = 1 from rfl]
        rw [show vget (col :: cxrx (col + contrib col ch) rest) 1 =
          vget (cxrx (col + contrib col ch) rest) 0 from rfl]
        rw [vget_cxrx_zero, hk]
      · intro t htk
        have ht' : t < contrib col ch := by rw [hk]; exact htk
        refine ⟨?_, ?_, ?_⟩
        · rw [rxcx_cons, Nat.sub_self, Nat.zero_add,
            vget_append_lt _ _ t (by simpa using ht'), vget_replicate _ 0 t ht']
        · rw [rxidx_cons, if_pos ht, Nat.sub_self, Nat.zero_add,
            vget_append_lt _ _ t (by simpa using ht'), vget_range _ t ht',
            vget_append_lt _ _ 0 (by simpa using hkpos), vget_range _ 0 hkpos]
          omega
        · rw [rxidx_cons, if_pos ht, Nat.sub_self, Nat.zero_add,
            vget_append_lt _ _ t (by simpa using ht'), vget_range _ t ht',
            renderOf_cons, if_pos ht]
          exact unitStartAt_replicate_space _ t _ ht'
    | succ m =>
      have hm : m < rest.length := by simpa using hcx
      have htab' : (rest.getD m defCh).isTab := by simpa using htab
      have hB' : ∀ u ∈ rest, 1 ≤ u.bytes := fun u hu => hB u (List.mem_cons_of_mem ch hu)
      obtain ⟨iha, ihb⟩ := ih (col + contrib col ch) m hB' hm htab'
      have hvtop : vget (cxrx col (ch :: rest)) (m + 1) =
          vget (cxrx (col + contrib col ch) rest) m := by
        rw [cxrx_cons, vget_cons_succ]
      have hvtop2 : vget (cxrx col (ch :: rest)) (m + 1 + 1) =
          vget (cxrx (col + contrib col ch) rest) (m + 1) := by
        rw [cxrx_cons, vget_cons_succ]
      rw [hvtop, hvtop2]
      set k0 := contrib col ch with hk0
      set v := vget (cxrx (col + k0) rest) m with hvdef
      have hge : col + k0 ≤ v := vget_cxrx_ge rest (col + k0) m (le_of_lt hm)
      have hle1 : vget (cxrx (col + k0) rest) (m + 1) ≤
          col + k0 + colsLen (renderOf (col + k0) rest) :=
        vget_cxrx_le rest (col + k0) (m + 1) hm
      have hfit : v + (TAB_WIDTH - v % TAB_WIDTH) ≤
          col + k0 + colsLen (renderOf (col + k0) rest) := by
        rw [iha] at hle1
        exact hle1
      have hKpos : 1 ≤ TAB_WIDTH - v % TAB_WIDTH := by
        have : v % TAB_WIDTH < TAB_WIDTH := Nat.mod_lt _ (by norm_num [TAB_WIDTH])
        omega
      refine ⟨iha, ?_⟩
      intro t htk
      obtain ⟨ihb1, ihb2, ihb3⟩ := ihb t htk
      have hblock : (if ch.isTab then List.range (contrib col ch)
          else List.replicate ch.width 0).length = k0 := by
        by_cases ht0 : ch.isTab <;> simp [ht0, contrib, hk0]
      have hidx : v - col + t - k0 = v - (col + k0) + t := by omega
      have hbound : v - (col + k0) + t < colsLen (renderOf (col + k0) rest) + 1 := by
        omega
      have hbound0 : v - (col + k0) < colsLen (renderOf (col + k0) rest) + 1 := by
        omega
      have hrepl : (List.replicate k0 (0 : Nat)).length ≤ v - col + t := by
        simp only [List.length_replicate]
        omega
      have hrepl0 : (List.replicate k0 (0 : Nat)).length ≤ v - col := by
        simp only [List.length_replicate]
        omega
      have hblk : (if ch.isTab then List.range (contrib col ch)
          else List.replicate ch.width 0).length ≤ v - col + t := by
        rw [hblock]
        omega
      have hblk0 : (if ch.isTab then List.range (contrib col ch)
          else List.replicate ch.width 0).length ≤ v - col := by
        rw [hblock]
        omega
      refine ⟨?_, ?_, ?_⟩
      · rw [rxcx_cons, vget_append_ge _ _ _ hrepl]
        simp only [List.length_replicate]
        rw [hidx, vget_map_add 1 _ _ (by rw [rxcx_length]; exact hbound), ihb1]
        omega
      · rw [rxidx_cons, vget_append_ge _ _ _ hblk, vget_append_ge _ _ _ hblk0, hblock,
          hidx, show v - col - k0 = v - (col + k0) from by omega,
          vget_map_add _ _ _ (by rw [rxidx_length]; exact hbound),
          vget_map_add _ _ _ (by rw [rxidx_length]; exact hbound0)]
        simp only [← hk0]
        rw [ihb2]
        omega
      · rw [rxidx_cons, vget_append_ge _ _ _ hblk, hblock, hidx,
          vget_map_add _ _ _ (by rw [rxidx_length]; exact hbound)]
        rw [renderOf_cons]
        have hpb : bytesLen (if ch.isTab then List.replicate (contrib col ch) spaceCh
            else [ch]) = cbytes col ch := by
          by_cases ht0 : ch.isTab <;>
            simp [ht0, cbytes, contrib, bytesLen, spaceCh]
        have hpv : ∀ u ∈ (if ch.isTab then List.replicate (contrib col ch) spaceCh
            else [ch]), 1 ≤ u.bytes := by
          intro u hu
          by_cases ht0 : ch.isTab
          · rw [if_pos ht0] at hu
            rw [List.eq_of_mem_replicate hu]
            decide
          · rw [if_neg ht0] at hu
            simp at hu
            rw [hu]
            exact hB ch (List.mem_cons_self ch rest)
        rw [← hpb, unitStartAt_append _ _ _ hpv]
        exact ihb3

end Kilo

namespace Kilo

/-- C3: `Row::update` expands each tab character to exactly
`TAB_WIDTH - current_render_col % TAB_WIDTH` display columns: the tab's
`cx_to_rx` span has exactly that many columns, each of those columns maps
back to the tab's character index in `rx_to_cx`, records consecutive byte
offsets in `rx_to_idx`, and each such offset starts one inserted space
byte in `render`. In particular a lone tab at render column 0 expands to
exactly 4 columns, and a tab starting at render column 5 expands to
exactly 3 columns (aligning to column 8). -/
theorem C3_tab_expansion :
    (∀ (s : List Ch) (cx : Nat), (∀ ch ∈ s, 1 ≤ ch.bytes) →
      cx < s.length → (s.getD cx defCh).isTab →
      vget (Row.update s).cx_to_rx (cx + 1) =
        vget (Row.update s).cx_to_rx cx +
          (TAB_WIDTH - (vget (Row.update s).cx_to_rx cx) % TAB_WIDTH) ∧
      ∀ t, t < TAB_WIDTH - (vget (Row.update s).cx_to_rx cx) % TAB_WIDTH →
        vget (Row.update s).rx_to_cx (vget (Row.update s).cx_to_rx cx + t) = cx ∧
        vget (Row.update s).rx_to_idx (vget (Row.update s).cx_to_rx cx + t) =
          vget (Row.update s).rx_to_idx (vget (Row.update s).cx_to_rx cx) + t ∧
        unitStartAt (Row.update s).render
          (vget (Row.update s).rx_to_idx (vget (Row.update s).cx_to_rx cx + t)) =
          some spaceCh) ∧
    (Row.update [⟨true, 0, 1⟩]).cx_to_rx = [0, 4] ∧
    (Row.update [⟨false, 2, 3⟩, ⟨false, 2, 3⟩, ⟨false, 1, 1⟩, ⟨true, 0, 1⟩]).cx_to_rx
      = [0, 2, 4, 5, 8] := by
  refine ⟨?_, by decide, by decide⟩
  intro s cx hB hcx htab
  obtain ⟨h1, h2, h3, h4⟩ := update_tables s
  rw [h1, h2, h3, h4]
  have h := tab_expand_gen s 0 cx hB hcx htab
  simpa using h

/-- Instantiation of the tab-expansion theorem on a concrete one-tab row. -/
theorem C3_tab_expansion_witness :
    vget (Row.update [⟨true, 0, 1⟩]).cx_to_rx (0 + 1) =
      vget (Row.update [⟨true, 0, 1⟩]).cx_to_rx 0 +
        (TAB_WIDTH - (vget (Row.update [⟨true, 0, 1⟩]).cx_to_rx 0) % TAB_WIDTH) :=
  (C3_tab_expansion.1 [⟨true, 0, 1⟩] 0 (by decide) (by decide) (by decide)).1

end Kilo

namespace Kilo

/-- A defaulted lookup past the end of the table gives the default. -/
theorem vget_ge_length (l : List Nat) : ∀ i, l.length ≤ i → vget l i = 0 := by
  induction l with
  | nil => intro i _; rfl
  | cons x t ih =>
    intro i h
    cases i with
    | zero => simp at h
    | succ n => rw [vget_cons_succ]; exact ih n (by simpa using h)

/-- Every `rx_to_idx` entry is at most the byte length of the rendered
form (the table holds byte offsets into `render`). -/
theorem rxidx_le_bytes (s : List Ch) :
    ∀ col j, vget (rxidx col s) j ≤ bytesLen (renderOf col s) := by
  induction s with
  | nil =>
    intro col j
    cases j with
    | zero => simp [rxidx, scan, renderOf, bytesLen, vget]
    | succ n => simp [rxidx, scan, renderOf, bytesLen, vget]
  | cons ch rest ih =>
    intro col j
    rw [rxidx_cons, bytesLen_renderOf_cons]
    by_cases ht : ch.isTab
    · rw [if_pos ht]
      have hcb : cbytes col ch = contrib col ch := by simp [cbytes, ht]
      by_cases hlt : j < (List.range (contrib col ch)).length
      · rw [vget_append_lt _ _ _ hlt, vget_range _ j (by simpa using hlt)]
        simp only [List.length_range] at hlt
        omega
      · push_neg at hlt
        rw [vget_append_ge _ _ _ hlt]
        simp only [List.length_range] at hlt ⊢
        by_cases hin : j - contrib col ch < (rxidx (col + contrib col ch) rest).length
        · rw [vget_map_add _ _ _ hin]
          have := ih (col + contrib col ch) (j - contrib col ch)
          omega
        · rw [vget_ge_length _ _ (by simp only [List.length_map]; omega)]
          omega
    · rw [if_neg ht]
      by_cases hlt : j < (List.replicate ch.width (0 : Nat)).length
      · rw [vget_append_lt _ _ _ hlt, vget_replicate _ _ j (by simpa using hlt)]
        omega
      · push_neg at hlt
        rw [vget_append_ge _ _ _ hlt]
        simp only [List.length_replicate] at hlt ⊢
        by_cases hin : j - ch.width < (rxidx (col + contrib col ch) rest).length
        · rw [vget_map_add _ _ _ hin]
          have := ih (col + contrib col ch) (j - ch.width)
          omega
        · rw [vget_ge_length _ _ (by simp only [List.length_map]; omega)]
          omega

/-- Adjacent entries of the `rx_to_idx` table are non-decreasing. -/
theorem rxidx_adj (s : List Ch) :
    ∀ col i, i + 1 < (rxidx col s).length →
      vget (rxidx col s) i ≤ vget (rxidx col s) (i + 1) := by
  induction s with
  | nil =>
    intro col i h
    rw [rxidx_length] at h
    simp [renderOf, scan, colsLen] at h
  | cons ch rest ih =>
    intro col i h
    rw [rxidx_cons] at h ⊢
    by_cases ht : ch.isTab
    · rw [if_pos ht] at h ⊢
      rw [List.length_append, List.length_range, List.length_map, rxidx_length] at h
      have hcb : cbytes col ch = contrib col ch := by simp [cbytes, ht]
      by_cases h1 : i + 1 < contrib col ch
      · rw [vget_append_lt _ _ (i + 1) (by simp only [List.length_range]; omega),
          vget_append_lt _ _ i (by simp only [List.length_range]; omega),
          vget_range _ _ h1, vget_range _ i (by omega)]
        omega
      · by_cases h2 : i + 1 = contrib col ch
        · rw [vget_append_lt _ _ i (by simp only [List.length_range]; omega),
            vget_append_ge _ _ (i + 1) (by simp only [List.length_range]; omega),
            vget_range _ i (by omega)]
          simp only [List.length_range]
          rw [← h2, Nat.sub_self,
            vget_map_add _ _ _ (by rw [rxidx_length]; omega)]
          omega
        · rw [vget_append_ge _ _ i (by simp only [List.length_range]; omega),
            vget_append_ge _ _ (i + 1) (by simp only [List.length_range]; omega)]
          simp only [List.length_range]
          rw [vget_map_add _ _ _ (by rw [rxidx_length]; omega),
            vget_map_add _ _ _ (by rw [rxidx_length]; omega),
            show i + 1 - contrib col ch = (i - contrib col ch) + 1 from by omega]
          have := ih (col + contrib col ch) (i - contrib col ch)
            (by rw [rxidx_length]; omega)
          omega
    · rw [if_neg ht] at h ⊢
      rw [List.length_append, List.length_replicate, List.length_map, rxidx_length] at h
      by_cases h1 : i + 1 < ch.width
      · rw [vget_append_lt _ _ (i + 1) (by simp only [List.length_replicate]; omega),
          vget_append_lt _ _ i (by simp only [List.length_replicate]; omega),
          vget_replicate _ _ _ h1, vget_replicate _ _ i (by omega)]
      · by_cases h2 : i + 1 = ch.width
        · rw [vget_append_lt _ _ i (by simp only [List.length_replicate]; omega),
            vget_append_ge _ _ (i + 1) (by simp only [List.length_replicate]; omega),
            vget_replicate _ _ i (by omega)]
          exact Nat.zero_le _
        · rw [vget_append_ge _ _ i (by simp only [List.length_replicate]; omega),
            vget_append_ge _ _ (i + 1) (by simp only [List.length_replicate]; omega)]
          simp only [List.length_replicate]
          rw [vget_map_add _ _ _ (by rw [rxidx_length]; omega),
            vget_map_add _ _ _ (by rw [rxidx_length]; omega),
            show i + 1 - ch.width = (i - ch.width) + 1 from by omega]
          have := ih (col + contrib col ch) (i - ch.width)
            (by rw [rxidx_length]; omega)
          omega

/-- A table whose adjacent entries are non-decreasing is monotone on
in-range indices. -/
theorem vget_mono_of_adj (t : List Nat)
    (hadj : ∀ i, i + 1 < t.length → vget t i ≤ vget t (i + 1)) :
    ∀ i j, i ≤ j → j < t.length → vget t i ≤ vget t j := by
  intro i j
  induction j with
  | zero =>
    intro hij _
    have h0 := Nat.le_zero.mp hij
    subst h0
    exact le_refl _
  | succ n ihn =>
    intro hij hlen
    by_cases he : i = n + 1
    · subst he; exact le_refl _
    · have h1 : i ≤ n := by omega
      have h2 : n < t.length := by omega
      exact le_trans (ihn h1 h2) (hadj n hlen)

end Kilo

namespace Kilo

/-- Safety of the index computations in `Row::draw` on a window
`[coloff, coloff+width)`: either the early return fires, or the initial
`end_rx` is positive (so `end_rx - 1` cannot underflow), every
`rx_to_idx` lookup that `draw` performs is within the table, and the
byte range `[start_idx, end_idx)` handed to the render slice is
well-formed and within the rendered bytes. -/
def drawSafe (r : Row) (coloff width : Nat) : Bool :=
  if r.max_rx ≤ coloff then true
  else
    let start_rx := coloff
    let end_rx := min (coloff + width) r.max_rx
    let truncate_start :=
      0 < start_rx ∧ vget r.rx_to_idx start_rx = vget r.rx_to_idx (start_rx - 1)
    let truncate_end :=
      end_rx ≤ r.max_rx ∧ vget r.rx_to_idx (end_rx - 1) = vget r.rx_to_idx end_rx
    let start_rx' := if truncate_start then start_rx + 1 else start_rx
    let end_rx' := if truncate_end then end_rx - 1 else end_rx
    decide (1 ≤ end_rx) &&
    decide (start_rx < r.rx_to_idx.length) &&
    decide (end_rx < r.rx_to_idx.length) &&
    decide (start_rx' < r.rx_to_idx.length) &&
    decide (end_rx' < r.rx_to_idx.length) &&
    decide (vget r.rx_to_idx start_rx' ≤ vget r.rx_to_idx end_rx') &&
    decide (vget r.rx_to_idx end_rx' ≤ bytesLen r.render)

/-- C9: for every row built by `Row::update` and every column offset,
`Row::draw` with `width ≥ 1` performs no out-of-range or ill-ordered
index computation: either `coloff ≥ max_rx` and the early return writes
nothing, or every `rx_to_idx` lookup (including the one at `end_rx - 1`)
is in bounds and the emitted byte range is well-formed within `render`.
The precondition `width ≥ 1` is needed: with `width = 0` the subtraction
`end_rx - 1` underflows already on a one-character row at `coloff = 0`. -/
theorem C9_draw_index_safety :
    (∀ (s : List Ch) (coloff width : Nat), 1 ≤ width →
      drawSafe (Row.update s) coloff width = true) ∧
    drawSafe (Row.update [⟨false, 1, 1⟩]) 0 0 = false := by
  constructor
  · intro s coloff width hw
    obtain ⟨hc1, hc2, hc3, hc4⟩ := update_tables s
    by_cases hco : (Row.update s).max_rx ≤ coloff
    · simp [drawSafe, hco]
    · simp only [drawSafe]
      rw [if_neg hco]
      push_neg at hco
      have hlen : (Row.update s).rx_to_idx.length = colsLen (renderOf 0 s) + 1 := by
        rw [hc3, rxidx_length]
      have hmax : (Row.update s).max_rx = colsLen (renderOf 0 s) := by
        simp [Row.max_rx, hc3, rxidx_length]
      have hM : (Row.update s).rx_to_idx.length = (Row.update s).max_rx + 1 := by
        rw [hmax, hlen]
      have hadj : ∀ i, i + 1 < (Row.update s).rx_to_idx.length →
          vget (Row.update s).rx_to_idx i ≤ vget (Row.update s).rx_to_idx (i + 1) := by
        rw [hc3]; exact rxidx_adj s 0
      have hmono := vget_mono_of_adj (Row.update s).rx_to_idx hadj
      have hbytes : ∀ j, vget (Row.update s).rx_to_idx j ≤ bytesLen (Row.update s).render := by
        rw [hc3, hc4]; exact rxidx_le_bytes s 0
      simp only [Bool.and_eq_true, decide_eq_true_eq]
      refine ⟨⟨⟨⟨⟨⟨?_, ?_⟩, ?_⟩, ?_⟩, ?_⟩, ?_⟩, ?_⟩
      · omega
      · omega
      · omega
      · split <;> omega
      · split <;> omega
      · by_cases hts : (0 < coloff ∧ vget (Row.update s).rx_to_idx coloff =
            vget (Row.update s).rx_to_idx (coloff - 1))
        · rw [if_pos hts]
          by_cases hte : (min (coloff + width) (Row.update s).max_rx ≤ (Row.update s).max_rx ∧
              vget (Row.update s).rx_to_idx (min (coloff + width) (Row.update s).max_rx - 1) =
                vget (Row.update s).rx_to_idx (min (coloff + width) (Row.update s).max_rx))
          · rw [if_pos hte]
            by_cases hord : coloff + 1 ≤ min (coloff + width) (Row.update s).max_rx - 1
            · exact hmono _ _ hord (by omega)
            · have hend : min (coloff + width) (Row.update s).max_rx = coloff + 1 := by omega
              have h2 := hte.2
              rw [hend] at h2 ⊢
              omega
          · rw [if_neg hte]
            exact hmono _ _ (by omega) (by omega)
        · rw [if_neg hts]
          split
          · exact hmono _ _ (by omega) (by omega)
          · exact hmono _ _ (by omega) (by omega)
      · split <;> exact hbytes _
  · decide

/-- Instantiation of the draw-safety theorem on a concrete wide-glyph
row and window. -/
theorem C9_draw_index_safety_witness :
    drawSafe (Row.update [⟨false, 2, 3⟩, ⟨true, 0, 1⟩]) 1 2 = true :=
  C9_draw_index_safety.1 [⟨false, 2, 3⟩, ⟨true, 0, 1⟩] 1 2 (by decide)

end Kilo

namespace Kilo

/-- Taking an append exactly past its first component. -/
theorem take_append_exact {α : Type} (a b : List α) :
    ∀ n, (a ++ b).take (a.length + n) = a ++ b.take n := by
  induction a with
  | nil => intro n; simp
  | cons x t ih =>
    intro n
    rw [List.cons_append, List.length_cons,
      show t.length + 1 + n = (t.length + n) + 1 from by omega,
      List.take_succ_cons, ih]
    rfl

/-- Dropping an append exactly past its first component. -/
theorem drop_append_exact {α : Type} (a b : List α) :
    ∀ n, (a ++ b).drop (a.length + n) = b.drop n := by
  induction a with
  | nil => intro n; simp
  | cons x t ih =>
    intro n
    rw [List.cons_append, List.length_cons,
      show t.length + 1 + n = (t.length + n) + 1 from by omega,
      List.drop_succ_cons, ih]

/-- A short take inside the spaces of an expanded tab. -/
theorem take_append_replicate_space (k : Nat) :
    ∀ j (R : List Ch), j ≤ k →
      (List.replicate k spaceCh ++ R).take j = List.replicate j spaceCh := by
  induction k with
  | zero =>
    intro j R h
    have hj : j = 0 := by omega
    subst hj
    simp
  | succ n ih =>
    intro j R h
    cases j with
    | zero => simp
    | succ m =>
      rw [List.replicate_succ, List.cons_append, List.take_succ_cons,
        ih m R (by omega), List.replicate_succ]

/-- The byte slice of the flattened cells between two glyph boundaries
is exactly the cells of the glyphs in between. -/
theorem cells_slice (R : List Ch) :
    ∀ j p q, p ≤ q → q ≤ R.length →
      ((cellsFrom j R).drop (bytesLen (R.take p))).take
          (bytesLen (R.take q) - bytesLen (R.take p)) =
        cellsFrom (j + p) ((R.take q).drop p) := by
  induction R with
  | nil =>
    intro j p q hpq hq
    simp [cellsFrom]
  | cons u us ih =>
    intro j p q hpq hq
    cases p with
    | zero =>
      cases q with
      | zero => simp [cellsFrom]
      | succ q' =>
        simp only [List.take_zero, List.drop_zero, Nat.add_zero, Nat.sub_zero,
          List.take_succ_cons]
        rw [show bytesLen ([] : List Ch) = 0 from rfl, Nat.sub_zero, List.drop_zero]
        rw [show cellsFrom j (u :: us) =
          (List.range u.bytes).map (Cell.byte j) ++ cellsFrom (j + 1) us from rfl]
        rw [show cellsFrom j (u :: us.take q') =
          (List.range u.bytes).map (Cell.byte j) ++ cellsFrom (j + 1) (us.take q') from rfl]
        rw [show bytesLen (u :: us.take q') = u.bytes + bytesLen (us.take q') from by
          simp [bytesLen]]
        have hta := take_append_exact ((List.range u.bytes).map (Cell.byte j))
          (cellsFrom (j + 1) us) (bytesLen (us.take q'))
        rw [show ((List.range u.bytes).map (Cell.byte j)).length = u.bytes from by simp] at hta
        rw [hta]
        congr 1
        have h0 := ih (j + 1) 0 q' (Nat.zero_le _) (by simpa using hq)
        simpa using h0
    | succ p' =>
      cases q with
      | zero => omega
      | succ q' =>
        have hq' : q' ≤ us.length := by simpa using hq
        have hpq' : p' ≤ q' := by omega
        simp only [List.take_succ_cons, List.drop_succ_cons]
        rw [show bytesLen (u :: us.take p') = u.bytes + bytesLen (us.take p') from by
          simp [bytesLen]]
        rw [show bytesLen (u :: us.take q') = u.bytes + bytesLen (us.take q') from by
          simp [bytesLen]]
        rw [show cellsFrom j (u :: us) =
          (List.range u.bytes).map (Cell.byte j) ++ cellsFrom (j + 1) us from rfl]
        have hda := drop_append_exact ((List.range u.bytes).map (Cell.byte j))
          (cellsFrom (j + 1) us) (bytesLen (us.take p'))
        rw [show ((List.range u.bytes).map (Cell.byte j)).length = u.bytes from by simp] at hda
        rw [hda, Nat.add_sub_add_left, ih (j + 1) p' q' hpq' hq']
        congr 1
        omega

/-- With positive glyph byte counts, byte offsets of strictly longer
prefixes are strictly larger. -/
theorem bytesLen_take_lt (R : List Ch) (hR : ∀ u ∈ R, 1 ≤ u.bytes) :
    ∀ p q, p < q → q ≤ R.length → bytesLen (R.take p) < bytesLen (R.take q) := by
  induction R with
  | nil => intro p q h1 h2; simp at h2; omega
  | cons u us ih =>
    intro p q h1 h2
    cases q with
    | zero => omega
    | succ q' =>
      cases p with
      | zero =>
        have hu : 1 ≤ u.bytes := hR u (List.mem_cons_self u us)
        simp only [List.take_zero, List.take_succ_cons]
        rw [show bytesLen ([] : List Ch) = 0 from rfl,
          show bytesLen (u :: us.take q') = u.bytes + bytesLen (us.take q') from by
            simp [bytesLen]]
        omega
      | succ p' =>
        have hrec := ih (fun v hv => hR v (List.mem_cons_of_mem u hv)) p' q'
          (by omega) (by simpa using h2)
        simp only [List.take_succ_cons]
        rw [show bytesLen (u :: us.take p') = u.bytes + bytesLen (us.take p') from by
          simp [bytesLen]]
        rw [show bytesLen (u :: us.take q') = u.bytes + bytesLen (us.take q') from by
          simp [bytesLen]]
        omega

/-- Every `rx_to_idx` entry is a glyph boundary of the rendered form:
the byte length of some prefix of whole rendered glyphs. -/
theorem rxidx_boundary (s : List Ch) :
    ∀ col j, j < (rxidx col s).length →
      ∃ p, p ≤ (renderOf col s).length ∧
        vget (rxidx col s) j = bytesLen ((renderOf col s).take p) := by
  induction s with
  | nil =>
    intro col j hj
    rw [rxidx_length] at hj
    have hj0 : j = 0 := by
      simp [renderOf, scan, colsLen] at hj
      omega
    subst hj0
    refine ⟨0, by simp, ?_⟩
    simp [rxidx, scan, renderOf, bytesLen, vget]
  | cons ch rest ih =>
    intro col j hj
    rw [rxidx_cons] at hj ⊢
    rw [renderOf_cons]
    by_cases ht : ch.isTab
    · rw [if_pos ht] at hj ⊢
      rw [if_pos ht]
      have hcb : cbytes col ch = contrib col ch := by simp [cbytes, ht]
      rw [List.length_append, List.length_range, List.length_map, rxidx_length] at hj
      by_cases hlt : j < contrib col ch
      · refine ⟨j, ?_, ?_⟩
        · simp only [List.length_append, List.length_replicate]
          omega
        · rw [vget_append_lt _ _ j (by simp only [List.length_range]; omega),
            vget_range _ j hlt, take_append_replicate_space _ j _ (by omega),
            bytesLen_replicate_space]
      · push_neg at hlt
        have hin : j - contrib col ch < (rxidx (col + contrib col ch) rest).length := by
          rw [rxidx_length]
          omega
        obtain ⟨p', hp1, hp2⟩ := ih (col + contrib col ch) (j - contrib col ch) hin
        refine ⟨contrib col ch + p', ?_, ?_⟩
        · simp only [List.length_append, List.length_replicate]
          omega
        · rw [vget_append_ge _ _ j (by simp only [List.length_range]; omega)]
          simp only [List.length_range]
          rw [vget_map_add _ _ _ hin]
          have hta := take_append_exact (List.replicate (contrib col ch) spaceCh)
            (renderOf (col + contrib col ch) rest) p'
          rw [show (List.replicate (contrib col ch) spaceCh).length = contrib col ch from by
            simp] at hta
          rw [hta, bytesLen_append, bytesLen_replicate_space, hp2, hcb]
    · rw [if_neg ht] at hj ⊢
      rw [if_neg ht]
      have hcb : cbytes col ch = ch.bytes := by simp [cbytes, ht]
      rw [List.length_append, List.length_replicate, List.length_map, rxidx_length] at hj
      by_cases hlt : j < ch.width
      · refine ⟨0, by simp, ?_⟩
        rw [vget_append_lt _ _ j (by simp only [List.length_replicate]; omega),
          vget_replicate _ _ j hlt]
        simp [bytesLen]
      · push_neg at hlt
        have hin : j - ch.width < (rxidx (col + contrib col ch) rest).length := by
          rw [rxidx_length]
          omega
        obtain ⟨p', hp1, hp2⟩ := ih (col + contrib col ch) (j - ch.width) hin
        refine ⟨1 + p', ?_, ?_⟩
        · simp only [List.length_append, List.length_cons, List.length_nil]
          omega
        · rw [vget_append_ge _ _ j (by simp only [List.length_replicate]; omega)]
          simp only [List.length_replicate]
          rw [vget_map_add _ _ _ hin]
          have hta := take_append_exact [ch] (renderOf (col + contrib col ch) rest) p'
          rw [show ([ch] : List Ch).length = 1 from rfl] at hta
          rw [hta, bytesLen_append, hp2, hcb,
            show bytesLen [ch] = ch.bytes from by simp [bytesLen]]

end Kilo

namespace Kilo

/-- C2: `Row::draw` never emits a proper fragment of a multi-column
glyph. On a non-trivial window its output is an optional truncation
marker, then the cells of a run of whole rendered glyphs (glyphs `p` to
`q - 1` of `render`, each emitted with all of its bytes), then an
optional truncation marker; each marker is emitted exactly when the
corresponding window boundary falls between two display columns mapping
to the same byte offset, the torn column being dropped. In particular a
row of three width-2, 3-byte glyphs drawn with `coloff = 1, width = 2`
emits no glyph bytes at all, just the two markers. -/
theorem C2_no_torn_glyph :
    (∀ (s : List Ch) (coloff width : Nat), (∀ ch ∈ s, 1 ≤ ch.bytes) →
      coloff < (Row.update s).max_rx →
      ∃ p q, p ≤ q ∧ q ≤ (Row.update s).render.length ∧
        Row.draw (Row.update s) coloff width =
          (if 0 < coloff ∧ vget (Row.update s).rx_to_idx coloff =
              vget (Row.update s).rx_to_idx (coloff - 1)
            then [Cell.marker] else []) ++
          cellsFrom p (((Row.update s).render.take q).drop p) ++
          (if min (coloff + width) (Row.update s).max_rx ≤ (Row.update s).max_rx ∧
              vget (Row.update s).rx_to_idx
                  (min (coloff + width) (Row.update s).max_rx - 1) =
                vget (Row.update s).rx_to_idx (min (coloff + width) (Row.update s).max_rx)
            then [Cell.marker] else [])) ∧
    Row.draw (Row.update [⟨false, 2, 3⟩, ⟨false, 2, 3⟩, ⟨false, 2, 3⟩]) 1 2 =
      [Cell.marker, Cell.marker] := by
  constructor
  · intro s coloff width hB hco
    obtain ⟨hc1, hc2, hc3, hc4⟩ := update_tables s
    have hlen : (Row.update s).rx_to_idx.length = colsLen (renderOf 0 s) + 1 := by
      rw [hc3, rxidx_length]
    have hmax : (Row.update s).max_rx = colsLen (renderOf 0 s) := by
      simp [Row.max_rx, hc3, rxidx_length]
    have hM : (Row.update s).rx_to_idx.length = (Row.update s).max_rx + 1 := by
      rw [hmax, hlen]
    have hRpos : ∀ u ∈ (Row.update s).render, 1 ≤ u.bytes := by
      rw [hc4]
      exact renderOf_bytes_pos s 0 hB
    have hbound : ∀ j, j < (Row.update s).rx_to_idx.length →
        ∃ p, p ≤ (Row.update s).render.length ∧
          vget (Row.update s).rx_to_idx j = bytesLen ((Row.update s).render.take p) := by
      rw [hc3, hc4]
      exact rxidx_boundary s 0
    have hA : (if 0 < coloff ∧ vget (Row.update s).rx_to_idx coloff =
          vget (Row.update s).rx_to_idx (coloff - 1)
        then coloff + 1 else coloff) < (Row.update s).rx_to_idx.length := by
      split <;> omega
    have hB' : (if min (coloff + width) (Row.update s).max_rx ≤ (Row.update s).max_rx ∧
          vget (Row.update s).rx_to_idx
              (min (coloff + width) (Row.update s).max_rx - 1) =
            vget (Row.update s).rx_to_idx (min (coloff + width) (Row.update s).max_rx)
        then min (coloff + width) (Row.update s).max_rx - 1
        else min (coloff + width) (Row.update s).max_rx) <
        (Row.update s).rx_to_idx.length := by
      split <;> omega
    obtain ⟨p, hp1, hp2⟩ := hbound _ hA
    obtain ⟨q, hq1, hq2⟩ := hbound _ hB'
    by_cases hcase : vget (Row.update s).rx_to_idx
        (if 0 < coloff ∧ vget (Row.update s).rx_to_idx coloff =
            vget (Row.update s).rx_to_idx (coloff - 1)
          then coloff + 1 else coloff) ≤
        vget (Row.update s).rx_to_idx
        (if min (coloff + width) (Row.update s).max_rx ≤ (Row.update s).max_rx ∧
            vget (Row.update s).rx_to_idx
                (min (coloff + width) (Row.update s).max_rx - 1) =
              vget (Row.update s).rx_to_idx (min (coloff + width) (Row.update s).max_rx)
          then min (coloff + width) (Row.update s).max_rx - 1
          else min (coloff + width) (Row.update s).max_rx)
    · have hpq : p ≤ q := by
        by_contra hqp
        push_neg at hqp
        have hlt := bytesLen_take_lt (Row.update s).render hRpos q p hqp hp1
        rw [hp2, hq2] at hcase
        omega
      refine ⟨p, q, hpq, hq1, ?_⟩
      simp only [Row.draw, Row.cells]
      rw [if_neg (not_le.mpr hco)]
      rw [hp2, hq2]
      have hmid := cells_slice (Row.update s).render 0 p q hpq hq1
      simp only [Nat.zero_add] at hmid
      rw [hmid]
    · push_neg at hcase
      refine ⟨0, 0, le_refl 0, Nat.zero_le _, ?_⟩
      simp only [Row.draw, Row.cells]
      rw [if_neg (not_le.mpr hco)]
      rw [show vget (Row.update s).rx_to_idx
          (if min (coloff + width) (Row.update s).max_rx ≤ (Row.update s).max_rx ∧
              vget (Row.update s).rx_to_idx
                  (min (coloff + width) (Row.update s).max_rx - 1) =
                vget (Row.update s).rx_to_idx (min (coloff + width) (Row.update s).max_rx)
            then min (coloff + width) (Row.update s).max_rx - 1
            else min (coloff + width) (Row.update s).max_rx) -
          vget (Row.update s).rx_to_idx
          (if 0 < coloff ∧ vget (Row.update s).rx_to_idx coloff =
              vget (Row.update s).rx_to_idx (coloff - 1)
            then coloff + 1 else coloff) = 0 from by omega]
      simp [cellsFrom]
  · decide

/-- Instantiation of the no-torn-glyph theorem on a one-glyph row with
the window starting inside the glyph. -/
theorem C2_no_torn_glyph_witness :
    ∃ p q, p ≤ q ∧ q ≤ (Row.update [⟨false, 2, 3⟩]).render.length ∧
      Row.draw (Row.update [⟨false, 2, 3⟩]) 1 2 =
        (if 0 < 1 ∧ vget (Row.update [⟨false, 2, 3⟩]).rx_to_idx 1 =
            vget (Row.update [⟨false, 2, 3⟩]).rx_to_idx (1 - 1)
          then [Cell.marker] else []) ++
        cellsFrom p (((Row.update [⟨false, 2, 3⟩]).render.take q).drop p) ++
        (if min (1 + 2) (Row.update [⟨false, 2, 3⟩]).max_rx ≤
              (Row.update [⟨false, 2, 3⟩]).max_rx ∧
            vget (Row.update [⟨false, 2, 3⟩]).rx_to_idx
                (min (1 + 2) (Row.update [⟨false, 2, 3⟩]).max_rx - 1) =
              vget (Row.update [⟨false, 2, 3⟩]).rx_to_idx
                (min (1 + 2) (Row.update [⟨false, 2, 3⟩]).max_rx)
          then [Cell.marker] else []) :=
  C2_no_torn_glyph.1 [⟨false, 2, 3⟩] 1 2 (by decide) (by decide)

end Kilo
